import Mathlib

/-!
Verification of the tesselation core of libcpab (`libcpab/core/tesselation.py`).

The Python source builds, for dimension 1, 2 or 3, a simplex decomposition of a
rectangular domain and a linear constraint matrix `L`.  We embed the source
shallowly in Lean:

* machine floats become exact rationals (`ℚ`); numpy `linspace` is embedded by
  its defining formula `a + i*(b-a)/(num-1)`, which on rationals reproduces the
  property the source relies on (adjacent cells reuse identical breakpoint
  values, so equality tests on shared vertices are exact);
* numpy arrays of rationals become `List ℚ` / `List (List ℚ)`; a matrix carries
  its column count explicitly (numpy keeps the width of a 0-row matrix);
* Python `set(...).intersection(...)` on vertex tuples becomes a deduplicating
  filter; Python set iteration order is unspecified, so every theorem below is
  stated order-independently (membership, counts, or singleton sets);
* fallible operations (index errors, numpy broadcast errors, division by zero,
  `NotImplementedError`) are embedded with `Except Err`.
-/

/-- Runtime failures of the embedded Python code: `NotImplementedError`,
numpy `ValueError` (shape mismatch in assignment or concatenation),
`IndexError` (out-of-range element access) and `ZeroDivisionError`. -/
inductive Err where
  | notImplementedError : Err
  | valueError : Err
  | indexError : Err
  | zeroDivisionError : Err
deriving DecidableEq, Repr

/-- Dense rational matrix: an explicit column count plus a list of rows.
numpy arrays keep their width even with zero rows, so the width is carried
explicitly; every constructed row is proved to have length `ncols`. -/
structure QMat where
  ncols : ℕ
  rows : List (List ℚ)
deriving DecidableEq, Repr

/-- Embeds `np.zeros((r, c))`. -/
def zerosM (r c : ℕ) : QMat :=
  ⟨c, List.replicate r (List.replicate c 0)⟩

/-- Embeds `np.concatenate((a, b), axis=0)` / `np.vstack`.  The source only
ever stacks blocks of identical width (proved where used), in which case numpy
returns the rows of `a` followed by the rows of `b`. -/
def vstackM (a b : QMat) : QMat :=
  ⟨a.ncols, a.rows ++ b.rows⟩

/-- Embeds the in-range numpy slice assignment `row[s : s + vals.length] = vals`.
For in-range writes (`s + vals.length ≤ l.length`) this is exactly the numpy
behaviour; it is always length preserving. -/
def setSlice (l : List ℚ) (s : ℕ) (vals : List ℚ) : List ℚ :=
  l.take s ++ vals.take (l.length - s) ++ l.drop (s + vals.length)

/-- Embeds `M[r, s : s + vals.length] = vals` on a matrix. -/
def setRow (M : QMat) (r s : ℕ) (vals : List ℚ) : QMat :=
  ⟨M.ncols, M.rows.set r (setSlice (M.rows.getD r []) s vals)⟩

theorem setSlice_length (l : List ℚ) (s : ℕ) (vals : List ℚ)
    (h : s + vals.length ≤ l.length) :
    (setSlice l s vals).length = l.length := by
  simp [setSlice]
  omega

theorem setSlice_getElem? (l : List ℚ) (s : ℕ) (vals : List ℚ) (c : ℕ)
    (h : s + vals.length ≤ l.length) :
    (setSlice l s vals)[c]? =
      if s ≤ c ∧ c < s + vals.length then vals[c - s]? else l[c]? := by
  have hts : (l.take s).length = s := by rw [List.length_take]; omega
  have htv : (vals.take (l.length - s)).length = vals.length := by
    rw [List.length_take]; omega
  unfold setSlice
  rcases Nat.lt_or_ge c s with hc | hc
  · rw [List.getElem?_append_left (by rw [List.length_append, hts, htv]; omega),
      List.getElem?_append_left (by omega), List.getElem?_take_of_lt hc]
    have : ¬ (s ≤ c ∧ c < s + vals.length) := by omega
    rw [if_neg this]
  · rcases Nat.lt_or_ge c (s + vals.length) with hc2 | hc2
    · rw [List.getElem?_append_left (by rw [List.length_append, hts, htv]; omega),
        List.getElem?_append_right (by omega), hts,
        List.getElem?_take_of_lt (by omega)]
      rw [if_pos ⟨hc, hc2⟩]
    · rw [List.getElem?_append_right (by rw [List.length_append, hts, htv]; omega),
        List.length_append, hts, htv, List.getElem?_drop]
      have he : s + vals.length + (c - (s + vals.length)) = c := by omega
      rw [he]
      have : ¬ (s ≤ c ∧ c < s + vals.length) := by omega
      rw [if_neg this]

theorem setSlice_getD (l : List ℚ) (s : ℕ) (vals : List ℚ) (c : ℕ)
    (h : s + vals.length ≤ l.length) :
    (setSlice l s vals).getD c 0 =
      if s ≤ c ∧ c < s + vals.length then vals.getD (c - s) 0 else l.getD c 0 := by
  rw [List.getD_eq_getElem?_getD, List.getD_eq_getElem?_getD, List.getD_eq_getElem?_getD,
    setSlice_getElem? l s vals c h]
  by_cases hin : s ≤ c ∧ c < s + vals.length
  · rw [if_pos hin, if_pos hin]
  · rw [if_neg hin, if_neg hin]

theorem replicate_getD (n c : ℕ) :
    (List.replicate n (0 : ℚ)).getD c 0 = 0 := by
  rw [List.getD_eq_getElem?_getD, List.getElem?_replicate]
  by_cases h : c < n
  · rw [if_pos h]; rfl
  · rw [if_neg h]; rfl

/-- Embeds `np.linspace(a, b, num)`: `num` evenly spaced points from `a` to `b`.
On rationals the defining formula is exact; for `num = 1` numpy returns `[a]`,
which the formula also yields since `(num : ℚ) - 1 = 0` makes the step `0`. -/
def linspaceN (a b : ℚ) (num : ℕ) : List ℚ :=
  (List.range num).map (fun (i : ℕ) => a + (i : ℚ) * ((b - a) / ((num : ℚ) - 1)))

theorem linspaceN_length (a b : ℚ) (num : ℕ) : (linspaceN a b num).length = num := by
  rw [linspaceN, List.length_map, List.length_range]

theorem linspaceN_getD (a b : ℚ) (num i : ℕ) (h : i < num) :
    (linspaceN a b num).getD i 0 = a + i * ((b - a) / ((num : ℚ) - 1)) := by
  rw [List.getD_eq_getElem?_getD, linspaceN, List.getElem?_map, List.getElem?_range h]
  rfl

/-!
Shared vertices.  `make_hashable` turns a simplex's vertex array into a tuple
of coordinate tuples, and `find_shared_verts` / `find_verts_outside` compute
`set(vi).intersection(vj)`.  We embed the intersection as a deduplicating
filter; Python set iteration order is unspecified, so only order-independent
facts about the result are used in the claims below.
-/

/-- Embeds `set(make_hashable(vi)).intersection(make_hashable(vj))`:
the distinct vertices of `vi` that also occur in `vj`. -/
def sharedVerts (a b : List (List ℚ)) : List (List ℚ) :=
  a.dedup.filter (fun v => decide (v ∈ b))

theorem mem_sharedVerts {a b : List (List ℚ)} {v : List ℚ} :
    v ∈ sharedVerts a b ↔ v ∈ a ∧ v ∈ b := by
  simp [sharedVerts, List.mem_filter, List.mem_dedup]

theorem nodup_sharedVerts (a b : List (List ℚ)) : (sharedVerts a b).Nodup :=
  (List.nodup_dedup a).filter _

theorem sharedVerts_length_comm (a b : List (List ℚ)) :
    (sharedVerts a b).length = (sharedVerts b a).length := by
  have hp : List.Perm (sharedVerts a b) (sharedVerts b a) := by
    rw [List.perm_ext_iff_of_nodup (nodup_sharedVerts a b) (nodup_sharedVerts b a)]
    intro v
    rw [mem_sharedVerts, mem_sharedVerts, and_comm]
  exact hp.length_eq

theorem sharedVerts_self (a : List (List ℚ)) : sharedVerts a a = a.dedup := by
  rw [sharedVerts, List.filter_eq_self]
  intro v hv
  simpa using List.mem_dedup.1 hv

/-!
The pairwise scan shared by `find_shared_verts` and the 2D
`find_verts_outside`.  Both iterate `for i in range(nC): for j in range(nC)`,
evaluate a symmetric condition on the ordered pair `(i, j)`, and record the
pair (with an associated payload) unless the swapped pair was already
recorded.
-/

/-- Iteration order of the doubly nested `for i in range(n): for j in range(n)`
loop. -/
def allPairs (n : ℕ) : List (ℕ × ℕ) :=
  (List.range n).flatMap (fun i => (List.range n).map (fun j => (i, j)))

theorem mem_allPairs {n : ℕ} {p : ℕ × ℕ} :
    p ∈ allPairs n ↔ p.1 < n ∧ p.2 < n := by
  rcases p with ⟨i, j⟩
  simp only [allPairs, List.mem_flatMap, List.mem_map, List.mem_range, Prod.mk.injEq]
  constructor
  · rintro ⟨a, ha, b, hb, rfl, rfl⟩
    exact ⟨ha, hb⟩
  · rintro ⟨h1, h2⟩
    exact ⟨i, h1, j, h2, rfl, rfl⟩

theorem allPairs_pairwise (n : ℕ) :
    (allPairs n).Pairwise (fun p q => p.1 * n + p.2 < q.1 * n + q.2) := by
  rw [allPairs, List.pairwise_flatMap]
  constructor
  · intro a _
    rw [List.pairwise_map]
    refine (List.pairwise_lt_range n).imp ?_
    intro x y hxy
    show a * n + x < a * n + y
    omega
  · refine (List.pairwise_lt_range n).imp ?_
    intro a b hab p hp q hq
    rw [List.mem_map] at hp hq
    rcases hp with ⟨x, hx, rfl⟩
    rcases hq with ⟨y, hy, rfl⟩
    rw [List.mem_range] at hx hy
    show a * n + x < b * n + y
    have h1 : a * n + n ≤ b * n := by
      have := Nat.succ_le_of_lt hab
      calc a * n + n = (a + 1) * n := by ring
        _ ≤ b * n := Nat.mul_le_mul_right n this
    omega

theorem nodup_allPairs (n : ℕ) : (allPairs n).Nodup :=
  (allPairs_pairwise n).imp (by
    intro p q h heq
    rw [heq] at h
    omega)

/-- If the row-major scan reaches `(i, j)` with `j < i`, the swapped pair
`(j, i)` was scanned earlier. -/
theorem allPairs_before {n i j : ℕ} {P rest : List (ℕ × ℕ)}
    (heq : allPairs n = P ++ (i, j) :: rest) (hji : j < i) : (j, i) ∈ P := by
  have hmem : (i, j) ∈ allPairs n := by
    rw [heq]
    exact List.mem_append_right _ (List.mem_cons_self _ _)
  have hb := mem_allPairs.1 hmem
  have hmem2 : (j, i) ∈ allPairs n := mem_allPairs.2 ⟨by omega, by omega⟩
  rw [heq] at hmem2
  rcases List.mem_append.1 hmem2 with hP | hcr
  · exact hP
  · rcases List.mem_cons.1 hcr with hhd | hrest
    · exfalso
      have : j = i := congrArg Prod.fst hhd
      omega
    · exfalso
      have pw := allPairs_pairwise n
      rw [heq] at pw
      have h2 := (List.pairwise_append.1 pw).2.1
      have h3 := (List.pairwise_cons.1 h2).1 (j, i) hrest
      simp only at h3
      have h4 : j * n + n ≤ i * n := by
        have := Nat.succ_le_of_lt hji
        calc j * n + n = (j + 1) * n := by ring
          _ ≤ i * n := Nat.mul_le_mul_right n this
      omega

/-- Predicate satisfied exactly by the pairs the scan records: the pair in
increasing order together with the symmetric condition. -/
def goodPair (cond : ℕ → ℕ → Bool) (p : ℕ × ℕ) : Bool :=
  decide (p.1 < p.2) && cond p.1 p.2

/-- One step per scanned ordered pair: record `(i, j)` and its payload when the
condition holds and the swapped pair `(j, i)` has not been recorded. -/
def pairScanGo {α : Type} (cond : ℕ → ℕ → Bool) (payload : ℕ → ℕ → α) :
    List (ℕ × ℕ) → List α × List (ℕ × ℕ) → List α × List (ℕ × ℕ)
  | [], acc => acc
  | (i, j) :: rest, acc =>
      pairScanGo cond payload rest
        (if cond i j = true ∧ (j, i) ∉ acc.2
         then (acc.1 ++ [payload i j], acc.2 ++ [(i, j)])
         else acc)

/-- Embeds the `for i in range(n): for j in range(n)` recording loop common to
`find_shared_verts` and the 2D `find_verts_outside`. -/
def pairScan {α : Type} (n : ℕ) (cond : ℕ → ℕ → Bool) (payload : ℕ → ℕ → α) :
    List α × List (ℕ × ℕ) :=
  pairScanGo cond payload (allPairs n) ([], [])

theorem pairScanGo_characterization {α : Type} {n : ℕ}
    (cond : ℕ → ℕ → Bool) (payload : ℕ → ℕ → α)
    (hsymm : ∀ i j, cond i j = cond j i) :
    ∀ (rest P : List (ℕ × ℕ)), allPairs n = P ++ rest →
    (∀ i, (i, i) ∈ rest → cond i i = false) →
    pairScanGo cond payload rest
      ((P.filter (goodPair cond)).map (fun p => payload p.1 p.2),
        P.filter (goodPair cond)) =
      (((allPairs n).filter (goodPair cond)).map (fun p => payload p.1 p.2),
        (allPairs n).filter (goodPair cond)) := by
  intro rest
  induction rest with
  | nil =>
    intro P heq _
    rw [heq, List.append_nil, pairScanGo]
  | cons hd tl ih =>
    intro P heq hdiag
    rcases hd with ⟨i, j⟩
    have hstep :
        (if cond i j = true ∧ (j, i) ∉ P.filter (goodPair cond)
         then ((P.filter (goodPair cond)).map (fun p => payload p.1 p.2) ++ [payload i j],
               P.filter (goodPair cond) ++ [(i, j)])
         else ((P.filter (goodPair cond)).map (fun p => payload p.1 p.2),
               P.filter (goodPair cond))) =
        (((P ++ [(i, j)]).filter (goodPair cond)).map (fun p => payload p.1 p.2),
          (P ++ [(i, j)]).filter (goodPair cond)) := by
      rcases Nat.lt_trichotomy i j with hij | hij | hij
      · by_cases hc : cond i j = true
        · have hgood : goodPair cond (i, j) = true := by
            simp [goodPair, hij, hc]
          have hnotin : (j, i) ∉ P.filter (goodPair cond) := by
            intro hmem
            have := (List.mem_filter.1 hmem).2
            simp [goodPair] at this
            omega
          rw [if_pos ⟨hc, hnotin⟩]
          simp [List.filter_append, List.filter_cons, hgood]
        · have hgood : goodPair cond (i, j) = false := by
            simp [goodPair, hc]
          rw [if_neg (by intro hcc; exact hc hcc.1)]
          simp [List.filter_append, List.filter_cons, hgood]
      · subst hij
        have hc : cond i i = false := hdiag i (List.mem_cons_self _ _)
        have hgood : goodPair cond (i, i) = false := by
          simp [goodPair, hc]
        rw [if_neg (by intro hcc; rw [hc] at hcc; exact Bool.false_ne_true hcc.1)]
        simp [List.filter_append, List.filter_cons, hgood]
      · have hgood : goodPair cond (i, j) = false := by
          simp only [goodPair, Bool.and_eq_false_iff, decide_eq_false_iff_not]
          left
          omega
        have hnotake : ¬ (cond i j = true ∧ (j, i) ∉ P.filter (goodPair cond)) := by
          rintro ⟨hc, hnotin⟩
          apply hnotin
          rw [List.mem_filter]
          refine ⟨allPairs_before heq hij, ?_⟩
          simp [goodPair, hij]
          rw [← hsymm i j]
          exact hc
        rw [if_neg hnotake]
        simp [List.filter_append, List.filter_cons, hgood]
    rw [pairScanGo, hstep]
    exact ih (P ++ [(i, j)]) (by rw [heq, List.append_assoc]; rfl)
      (fun k hk => hdiag k (List.mem_cons_of_mem _ hk))

theorem pairScan_characterization {α : Type} (n : ℕ)
    (cond : ℕ → ℕ → Bool) (payload : ℕ → ℕ → α)
    (hsymm : ∀ i j, cond i j = cond j i)
    (hdiag : ∀ i, i < n → cond i i = false) :
    pairScan n cond payload =
      (((allPairs n).filter (goodPair cond)).map (fun p => payload p.1 p.2),
        (allPairs n).filter (goodPair cond)) := by
  have h := pairScanGo_characterization (n := n) cond payload hsymm (allPairs n) []
    (by rw [List.nil_append])
    (fun i hi => hdiag i (mem_allPairs.1 hi).1)
  simpa [pairScan] using h

theorem pairScan_snd_mem {α : Type} (n : ℕ)
    (cond : ℕ → ℕ → Bool) (payload : ℕ → ℕ → α)
    (hsymm : ∀ i j, cond i j = cond j i)
    (hdiag : ∀ i, i < n → cond i i = false) (i j : ℕ) :
    (i, j) ∈ (pairScan n cond payload).2 ↔
      i < j ∧ i < n ∧ j < n ∧ cond i j = true := by
  rw [pairScan_characterization n cond payload hsymm hdiag]
  simp only [List.mem_filter, mem_allPairs, goodPair, Bool.and_eq_true,
    decide_eq_true_eq]
  constructor
  · rintro ⟨⟨h1, h2⟩, h3, h4⟩
    exact ⟨h3, h1, h2, h4⟩
  · rintro ⟨h3, h1, h2, h4⟩
    exact ⟨⟨h1, h2⟩, h3, h4⟩

theorem pairScan_snd_nodup {α : Type} (n : ℕ)
    (cond : ℕ → ℕ → Bool) (payload : ℕ → ℕ → α)
    (hsymm : ∀ i j, cond i j = cond j i)
    (hdiag : ∀ i, i < n → cond i i = false) :
    (pairScan n cond payload).2.Nodup := by
  rw [pairScan_characterization n cond payload hsymm hdiag]
  exact (nodup_allPairs n).filter _

theorem pairScan_fst_eq_map {α : Type} (n : ℕ)
    (cond : ℕ → ℕ → Bool) (payload : ℕ → ℕ → α)
    (hsymm : ∀ i j, cond i j = cond j i)
    (hdiag : ∀ i, i < n → cond i i = false) :
    (pairScan n cond payload).1 =
      (pairScan n cond payload).2.map (fun p => payload p.1 p.2) := by
  rw [pairScan_characterization n cond payload hsymm hdiag]

/-- Embeds `Tesselation.find_shared_verts`: the exhaustive `nC × nC` scan
recording, for each ordered pair scanned row-major, the shared vertex set and
the index pair whenever the intersection has exactly `ndim` elements and the
swapped pair was not recorded before. -/
def find_shared_verts (ndim nC : ℕ) (verts : List (List (List ℚ))) :
    List (List (List ℚ)) × List (ℕ × ℕ) :=
  pairScan nC
    (fun i j => decide ((sharedVerts (verts.getD i []) (verts.getD j [])).length = ndim))
    (fun i j => sharedVerts (verts.getD i []) (verts.getD j []))

theorem find_shared_verts_cond_symm (ndim : ℕ) (verts : List (List (List ℚ))) :
    ∀ i j, (fun i j =>
        decide ((sharedVerts (verts.getD i []) (verts.getD j [])).length = ndim)) i j =
      (fun i j =>
        decide ((sharedVerts (verts.getD i []) (verts.getD j [])).length = ndim)) j i := by
  intro i j
  simp only [decide_eq_decide]
  rw [sharedVerts_length_comm]

theorem find_shared_verts_snd_mem (ndim nC : ℕ) (verts : List (List (List ℚ)))
    (hdiag : ∀ i, i < nC → (verts.getD i []).dedup.length ≠ ndim) (i j : ℕ) :
    (i, j) ∈ (find_shared_verts ndim nC verts).2 ↔
      i < j ∧ i < nC ∧ j < nC ∧
        (sharedVerts (verts.getD i []) (verts.getD j [])).length = ndim := by
  rw [find_shared_verts, pairScan_snd_mem _ _ _ (find_shared_verts_cond_symm ndim verts)
    (fun k hk => by
      simp only [decide_eq_false_iff_not]
      rw [sharedVerts_self]
      exact hdiag k hk)]
  simp only [decide_eq_true_eq]

theorem find_shared_verts_snd_nodup (ndim nC : ℕ) (verts : List (List (List ℚ)))
    (hdiag : ∀ i, i < nC → (verts.getD i []).dedup.length ≠ ndim) :
    (find_shared_verts ndim nC verts).2.Nodup := by
  rw [find_shared_verts]
  exact pairScan_snd_nodup _ _ _ (find_shared_verts_cond_symm ndim verts)
    (fun k hk => by
      simp only [decide_eq_false_iff_not]
      rw [sharedVerts_self]
      exact hdiag k hk)

theorem find_shared_verts_fst_eq_map (ndim nC : ℕ) (verts : List (List (List ℚ)))
    (hdiag : ∀ i, i < nC → (verts.getD i []).dedup.length ≠ ndim) :
    (find_shared_verts ndim nC verts).1 =
      (find_shared_verts ndim nC verts).2.map
        (fun p => sharedVerts (verts.getD p.1 []) (verts.getD p.2 [])) := by
  rw [find_shared_verts]
  exact pairScan_fst_eq_map _ _ _ (find_shared_verts_cond_symm ndim verts)
    (fun k hk => by
      simp only [decide_eq_false_iff_not]
      rw [sharedVerts_self]
      exact hdiag k hk)

/-!
1D tesselation (`Tesselation1D`, `nc = [n]`, `domain_min = [dmin]`,
`domain_max = [dmax]`; `n_params = 2`, `nC = np.prod([n]) = n`, `ndim = 1`).
-/

/-- Embeds `Tesselation1D.find_verts`: `n` intervals with homogeneous
endpoints `(Vx[i], 1), (Vx[i+1], 1)` over `linspace(dmin, dmax, n+1)`. -/
def Tesselation1D.find_verts (n : ℕ) (dmin dmax : ℚ) : List (List (List ℚ)) :=
  let Vx := linspaceN dmin dmax (n + 1)
  (List.range n).map (fun i => [[Vx.getD i 0, 1], [Vx.getD (i + 1) 0, 1]])

/-- Embeds `Tesselation1D.create_continuity_constrains`.  The source allocates
`np.zeros((nC-1, 2*nC))` — a `ValueError` for `nC = 0` — and writes row `idx`
for each entry of `shared_v`, an `IndexError` as soon as `idx` exceeds
`nC - 2`; within bounds each write puts `[*v[0], *(-v[0])]` at columns
`2*idx .. 2*idx+4`. -/
def Tesselation1D.create_continuity_constrains (nC : ℕ)
    (shared_v : List (List (List ℚ))) : Except Err QMat :=
  if nC = 0 then .error .valueError
  else if shared_v.length ≤ nC - 1 then
    .ok (shared_v.enum.foldl
      (fun M x =>
        setRow M x.1 (2 * x.1) ((x.2.getD 0 []) ++ (x.2.getD 0 []).map Neg.neg))
      (zerosM (nC - 1) (2 * nC)))
  else .error .indexError

/-- Embeds `Tesselation1D.create_zero_boundary_constrains`: two rows, the
homogeneous left endpoint in cell 0's block and the right endpoint in the last
cell's block (`Ltemp[1,-2:]`). -/
def Tesselation1D.create_zero_boundary_constrains (nC : ℕ) (dmin dmax : ℚ) : QMat :=
  ⟨2 * nC,
    [setSlice (List.replicate (2 * nC) 0) 0 [dmin, 1],
     setSlice (List.replicate (2 * nC) 0) (2 * nC - 2) [dmax, 1]]⟩

/-- Embeds `Tesselation.create_zero_trace_constrains`, shared by all
dimensions: one row per cell, the flattened `ndim × ndim` identity with a zero
translation column, written into the cell's `n_params`-wide block. -/
def Tesselation.create_zero_trace_constrains (ndim n_params nC : ℕ) : QMat :=
  let row := (List.range ndim).flatMap
    (fun r => ((List.range ndim).map (fun c => if r = c then (1 : ℚ) else 0)) ++ [0])
  ⟨n_params * nC,
    (List.range nC).map
      (fun c => setSlice (List.replicate (n_params * nC) 0) (n_params * c) row)⟩

/-- Result of a completed 1D construction: the attributes the source stores on
the instance. -/
structure Tess1D where
  L : QMat
  verts : List (List (List ℚ))
  shared_v : List (List (List ℚ))
  shared_v_idx : List (ℕ × ℕ)
deriving DecidableEq, Repr

/-- Embeds `Tesselation1D([n], [dmin], [dmax], zero_boundary,
volume_perservation)`: the fixed base-class pipeline.  `find_verts_outside` is
`pass` in 1D, so when `zero_boundary` is false nothing is added to the shared
vertex data. -/
def Tesselation1D.construct (n : ℕ) (dmin dmax : ℚ)
    (zero_boundary volume_perservation : Bool) : Except Err Tess1D := do
  let nC := n
  let verts := Tesselation1D.find_verts n dmin dmax
  let sh := find_shared_verts 1 nC verts
  let L0 ← Tesselation1D.create_continuity_constrains nC sh.1
  let L1 := if zero_boundary
    then vstackM L0 (Tesselation1D.create_zero_boundary_constrains nC dmin dmax)
    else L0
  let L2 := if volume_perservation
    then vstackM L1 (Tesselation.create_zero_trace_constrains 1 2 nC)
    else L1
  return ⟨L2, verts, sh.1, sh.2⟩

/-- Breakpoint `Vx[i]` of the 1D decomposition. -/
def bp (n : ℕ) (dmin dmax : ℚ) (i : ℕ) : ℚ :=
  (linspaceN dmin dmax (n + 1)).getD i 0

theorem bp_eq (n : ℕ) (dmin dmax : ℚ) (i : ℕ) (hi : i ≤ n) :
    bp n dmin dmax i = dmin + (i : ℚ) * ((dmax - dmin) / (n : ℚ)) := by
  rw [bp, linspaceN_getD dmin dmax (n + 1) i (by omega)]
  push_cast
  ring_nf

theorem bp_inj (n : ℕ) (dmin dmax : ℚ) (hne : dmin ≠ dmax) {i j : ℕ}
    (hi : i ≤ n) (hj : j ≤ n) (h : bp n dmin dmax i = bp n dmin dmax j) : i = j := by
  rcases Nat.eq_zero_or_pos n with h0 | hn
  · omega
  · rw [bp_eq n dmin dmax i hi, bp_eq n dmin dmax j hj] at h
    have hs : (dmax - dmin) / (n : ℚ) ≠ 0 := by
      apply div_ne_zero
      · intro hc
        apply hne
        linarith
      · have hpos : (0 : ℚ) < (n : ℚ) := by exact_mod_cast hn
        linarith
    have h2 : (i : ℚ) * ((dmax - dmin) / (n : ℚ)) =
        (j : ℚ) * ((dmax - dmin) / (n : ℚ)) := by linarith
    have h3 : (i : ℚ) = (j : ℚ) := mul_right_cancel₀ hs h2
    exact_mod_cast h3

theorem Tesselation1D.find_verts_getD (n : ℕ) (dmin dmax : ℚ) {i : ℕ} (hi : i < n) :
    (Tesselation1D.find_verts n dmin dmax).getD i [] =
      [[bp n dmin dmax i, 1], [bp n dmin dmax (i + 1), 1]] := by
  rw [Tesselation1D.find_verts, List.getD_eq_getElem?_getD]
  simp only [List.getElem?_map, List.getElem?_range hi]
  rfl

theorem vertex1D_inj (n : ℕ) (dmin dmax : ℚ) (hne : dmin ≠ dmax) {k l : ℕ}
    (hk : k ≤ n) (hl : l ≤ n) :
    ([bp n dmin dmax k, 1] : List ℚ) = [bp n dmin dmax l, 1] ↔ k = l := by
  constructor
  · intro h
    have hb : bp n dmin dmax k = bp n dmin dmax l := by
      simpa using congrArg (fun v => List.getD v 0 (0 : ℚ)) h
    exact bp_inj n dmin dmax hne hk hl hb
  · rintro rfl
    rfl

theorem verts1D_dedup (n : ℕ) (dmin dmax : ℚ) (hne : dmin ≠ dmax) {i : ℕ}
    (hi : i < n) :
    ((Tesselation1D.find_verts n dmin dmax).getD i []).dedup =
      [[bp n dmin dmax i, 1], [bp n dmin dmax (i + 1), 1]] := by
  rw [Tesselation1D.find_verts_getD n dmin dmax hi]
  have hab : ([bp n dmin dmax i, 1] : List ℚ) ≠ [bp n dmin dmax (i + 1), 1] := by
    intro h
    have := (vertex1D_inj n dmin dmax hne (by omega) (by omega)).1 h
    omega
  rw [List.dedup_cons_of_not_mem (by simp [hab]), List.dedup_cons_of_not_mem (by simp),
    List.dedup_nil]

theorem sharedVerts_1D (n : ℕ) (dmin dmax : ℚ) (hne : dmin ≠ dmax) {i j : ℕ}
    (hi : i < n) (hj : j < n) :
    sharedVerts ((Tesselation1D.find_verts n dmin dmax).getD i [])
        ((Tesselation1D.find_verts n dmin dmax).getD j []) =
      (if i = j ∨ i = j + 1 then [[bp n dmin dmax i, 1]] else []) ++
      (if i + 1 = j ∨ i = j then [[bp n dmin dmax (i + 1), 1]] else []) := by
  rw [sharedVerts, verts1D_dedup n dmin dmax hne hi,
    Tesselation1D.find_verts_getD n dmin dmax hj]
  have m1 : ([bp n dmin dmax i, 1] : List ℚ) ∈
      [[bp n dmin dmax j, 1], [bp n dmin dmax (j + 1), 1]] ↔ (i = j ∨ i = j + 1) := by
    simp only [List.mem_cons, List.not_mem_nil, or_false]
    rw [vertex1D_inj n dmin dmax hne (by omega) (by omega),
      vertex1D_inj n dmin dmax hne (by omega) (by omega)]
  have m2 : ([bp n dmin dmax (i + 1), 1] : List ℚ) ∈
      [[bp n dmin dmax j, 1], [bp n dmin dmax (j + 1), 1]] ↔ (i + 1 = j ∨ i = j) := by
    simp only [List.mem_cons, List.not_mem_nil, or_false]
    rw [vertex1D_inj n dmin dmax hne (by omega) (by omega),
      vertex1D_inj n dmin dmax hne (by omega) (by omega)]
    omega
  simp only [List.filter_cons, List.filter_nil, decide_eq_true_eq]
  by_cases h1 : i = j ∨ i = j + 1 <;> by_cases h2 : i + 1 = j ∨ i = j <;>
    simp [m1, m2, h1, h2]

theorem filter_range_single (n k : ℕ) :
    (List.range n).filter (fun j => decide (j = k)) = if k < n then [k] else [] := by
  induction n with
  | zero => simp
  | succ m ih =>
    rw [List.range_succ, List.filter_append, ih]
    by_cases hk : k < m
    · have hk2 : k < m + 1 := by omega
      have hne : ¬ (m = k) := by omega
      simp [hk, hk2, hne]
    · by_cases he : m = k
      · subst he
        simp [hk]
      · have : ¬ (k < m + 1) := by omega
        simp [hk, he, this]

theorem flatMap_singleton_eq_map {α β : Type} (l : List α) (f : α → List β) (g : α → β)
    (h : ∀ a ∈ l, f a = [g a]) : l.flatMap f = l.map g := by
  induction l with
  | nil => rfl
  | cons a tl ih =>
    rw [List.flatMap_cons, List.map_cons, h a (List.mem_cons_self _ _),
      ih (fun x hx => h x (List.mem_cons_of_mem _ hx))]
    rfl

theorem flatMap_congr {α β : Type} (l : List α) (f g : α → List β)
    (h : ∀ a ∈ l, f a = g a) : l.flatMap f = l.flatMap g := by
  induction l with
  | nil => rfl
  | cons a tl ih =>
    rw [List.flatMap_cons, List.flatMap_cons, h a (List.mem_cons_self _ _),
      ih (fun x hx => h x (List.mem_cons_of_mem _ hx))]

theorem flatMap_step (n : ℕ) :
    (List.range n).flatMap (fun i => if i + 1 < n then [(i, i + 1)] else []) =
      (List.range (n - 1)).map (fun i => (i, i + 1)) := by
  cases n with
  | zero => rfl
  | succ m =>
    rw [List.range_succ, List.flatMap_append]
    have h1 : (List.range m).flatMap (fun i => if i + 1 < m + 1 then [(i, i + 1)] else []) =
        (List.range m).map (fun i => (i, i + 1)) := by
      apply flatMap_singleton_eq_map
      intro a ha
      rw [List.mem_range] at ha
      rw [if_pos (by omega)]
    rw [h1]
    simp

theorem Tesselation1D.shared_snd (n : ℕ) (dmin dmax : ℚ) (hne : dmin ≠ dmax) :
    (find_shared_verts 1 n (Tesselation1D.find_verts n dmin dmax)).2 =
      (List.range (n - 1)).map (fun i => (i, i + 1)) := by
  have hdiag : ∀ i, i < n →
      (fun i j => decide ((sharedVerts
        ((Tesselation1D.find_verts n dmin dmax).getD i [])
        ((Tesselation1D.find_verts n dmin dmax).getD j [])).length = 1)) i i = false := by
    intro i hi
    simp only [decide_eq_false_iff_not]
    rw [sharedVerts_self, verts1D_dedup n dmin dmax hne hi]
    simp
  rw [find_shared_verts, pairScan_characterization _ _ _
    (find_shared_verts_cond_symm 1 _) hdiag]
  show (allPairs n).filter _ = _
  have hcongr : ∀ p ∈ allPairs n,
      goodPair (fun i j => decide ((sharedVerts
        ((Tesselation1D.find_verts n dmin dmax).getD i [])
        ((Tesselation1D.find_verts n dmin dmax).getD j [])).length = 1)) p =
      decide (p.2 = p.1 + 1) := by
    rintro ⟨i, j⟩ hp
    obtain ⟨hi, hj⟩ := mem_allPairs.1 hp
    by_cases hij : i < j
    · have hg : goodPair (fun i j => decide ((sharedVerts
          ((Tesselation1D.find_verts n dmin dmax).getD i [])
          ((Tesselation1D.find_verts n dmin dmax).getD j [])).length = 1)) (i, j) =
          decide ((sharedVerts
            ((Tesselation1D.find_verts n dmin dmax).getD i [])
            ((Tesselation1D.find_verts n dmin dmax).getD j [])).length = 1) := by
        simp [goodPair, hij]
      rw [hg, decide_eq_decide, sharedVerts_1D n dmin dmax hne hi hj]
      have h1 : ¬ (i = j ∨ i = j + 1) := by omega
      rw [if_neg h1]
      by_cases h2 : i + 1 = j ∨ i = j
      · have hj2 : j = i + 1 := by omega
        rw [if_pos h2]
        simp [hj2]
      · have hj2 : ¬ (j = i + 1) := by omega
        rw [if_neg h2]
        simp [hj2]
    · have h3 : ¬ ((j : ℕ) = i + 1) := by omega
      simp [goodPair, hij, h3]
  rw [List.filter_congr hcongr]
  conv_lhs => rw [allPairs]
  rw [List.filter_flatMap]
  have hrow : ∀ i ∈ List.range n,
      ((List.range n).map (fun j => (i, j))).filter
          (fun p : ℕ × ℕ => decide (p.2 = p.1 + 1)) =
        if i + 1 < n then [(i, i + 1)] else [] := by
    intro i _
    rw [List.filter_map]
    have hco : ((fun p : ℕ × ℕ => decide (p.2 = p.1 + 1)) ∘ (fun j => (i, j))) =
        fun j => decide (j = i + 1) := rfl
    rw [hco, filter_range_single]
    by_cases h : i + 1 < n
    · rw [if_pos h, if_pos h]
      rfl
    · rw [if_neg h, if_neg h]
      rfl
  rw [flatMap_congr (List.range n) _ _ hrow, flatMap_step]

theorem Tesselation1D.shared_fst (n : ℕ) (dmin dmax : ℚ) (hne : dmin ≠ dmax) :
    (find_shared_verts 1 n (Tesselation1D.find_verts n dmin dmax)).1 =
      (List.range (n - 1)).map (fun i => [[bp n dmin dmax (i + 1), 1]]) := by
  have hdiag : ∀ i, i < n →
      ((Tesselation1D.find_verts n dmin dmax).getD i []).dedup.length ≠ 1 := by
    intro i hi
    rw [verts1D_dedup n dmin dmax hne hi]
    simp
  rw [find_shared_verts_fst_eq_map 1 n _ hdiag, Tesselation1D.shared_snd n dmin dmax hne,
    List.map_map]
  apply List.map_congr_left
  intro i hi
  rw [List.mem_range] at hi
  show sharedVerts ((Tesselation1D.find_verts n dmin dmax).getD i [])
      ((Tesselation1D.find_verts n dmin dmax).getD (i + 1) []) = _
  rw [sharedVerts_1D n dmin dmax hne (by omega) (by omega)]
  have h1 : ¬ (i = i + 1 ∨ i = i + 1 + 1) := by omega
  rw [if_neg h1, if_pos (Or.inl rfl)]
  rfl

theorem Tesselation1D.construct_spec (n : ℕ) (dmin dmax : ℚ) (hn : 0 < n)
    (hne : dmin ≠ dmax) (zb vp : Bool) :
    ∃ L : QMat, Tesselation1D.construct n dmin dmax zb vp =
      Except.ok ⟨L, Tesselation1D.find_verts n dmin dmax,
        (find_shared_verts 1 n (Tesselation1D.find_verts n dmin dmax)).1,
        (find_shared_verts 1 n (Tesselation1D.find_verts n dmin dmax)).2⟩ := by
  have hlen : (find_shared_verts 1 n (Tesselation1D.find_verts n dmin dmax)).1.length =
      n - 1 := by
    rw [Tesselation1D.shared_fst n dmin dmax hne, List.length_map, List.length_range]
  have hcc : Tesselation1D.create_continuity_constrains n
      (find_shared_verts 1 n (Tesselation1D.find_verts n dmin dmax)).1 =
      .ok ((find_shared_verts 1 n (Tesselation1D.find_verts n dmin dmax)).1.enum.foldl
        (fun M x =>
          setRow M x.1 (2 * x.1) ((x.2.getD 0 []) ++ (x.2.getD 0 []).map Neg.neg))
        (zerosM (n - 1) (2 * n))) := by
    rw [Tesselation1D.create_continuity_constrains, if_neg (by omega),
      if_pos (by rw [hlen])]
  unfold Tesselation1D.construct
  dsimp only
  rw [hcc]
  exact ⟨_, rfl⟩

/-!
2D tesselation (`Tesselation2D`, `nc = [nc0, nc1]`,
`domain_min = [dmin0, dmin1]`, `domain_max = [dmax0, dmax1]`;
`n_params = 6`, `nC = 4*np.prod(nc)`, `ndim = 2`).
-/

/-- Embeds `Tesselation2D.find_verts`: for each cell (`i` over `nc[1]` rows,
`j` over `nc[0]` columns) four triangles fanned from the centroid in the fixed
order `(center,ul,ur), (center,ur,lr), (center,lr,ll), (center,ll,ul)`, and the
cell multi-indices `(j, i, 0..3)` = (column, row, sub-triangle). -/
def Tesselation2D.find_verts (nc0 nc1 : ℕ) (dmin0 dmin1 dmax0 dmax1 : ℚ) :
    List (List (List ℚ)) × List (ℕ × ℕ × ℕ) :=
  let Vx := linspaceN dmin0 dmax0 (nc0 + 1)
  let Vy := linspaceN dmin1 dmax1 (nc1 + 1)
  ((List.range nc1).flatMap (fun i => (List.range nc0).flatMap (fun j =>
    let ul := [Vx.getD j 0, Vy.getD i 0, 1]
    let ur := [Vx.getD (j + 1) 0, Vy.getD i 0, 1]
    let ll := [Vx.getD j 0, Vy.getD (i + 1) 0, 1]
    let lr := [Vx.getD (j + 1) 0, Vy.getD (i + 1) 0, 1]
    let center := [(Vx.getD j 0 + Vx.getD (j + 1) 0) / 2,
                   (Vy.getD i 0 + Vy.getD (i + 1) 0) / 2, 1]
    [[center, ul, ur], [center, ur, lr], [center, lr, ll], [center, ll, ul]])),
   (List.range nc1).flatMap (fun i => (List.range nc0).flatMap (fun j =>
    [(j, i, 0), (j, i, 1), (j, i, 2), (j, i, 3)])))

/-- Embeds the `left[i,j]` test of `Tesselation2D.find_verts_outside`: both
triangles in the leftmost column, both sub-triangle 3, cell rows differing by
exactly 1. -/
def Tesselation2D.left_flag (cells : List (ℕ × ℕ × ℕ)) (i j : ℕ) : Bool :=
  let mi := cells.getD i (0, 0, 0)
  let mj := cells.getD j (0, 0, 0)
  decide (mi.1 = 0 ∧ mj.1 = 0 ∧ mi.2.2 = 3 ∧ mj.2.2 = 3 ∧
    ((mi.2.1 : ℤ) - (mj.2.1 : ℤ)).natAbs = 1)

/-- Embeds the `right[i,j]` test: both triangles in the rightmost column
(`nc[0]-1`), both sub-triangle 1, cell rows differing by exactly 1. -/
def Tesselation2D.right_flag (nc0 : ℕ) (cells : List (ℕ × ℕ × ℕ)) (i j : ℕ) : Bool :=
  let mi := cells.getD i (0, 0, 0)
  let mj := cells.getD j (0, 0, 0)
  decide (mi.1 = nc0 - 1 ∧ mj.1 = nc0 - 1 ∧ mi.2.2 = 1 ∧ mj.2.2 = 1 ∧
    ((mi.2.1 : ℤ) - (mj.2.1 : ℤ)).natAbs = 1)

/-- Embeds the `top[i,j]` test: both triangles in the uppermost row, both
sub-triangle 0, cell columns differing by exactly 1. -/
def Tesselation2D.top_flag (cells : List (ℕ × ℕ × ℕ)) (i j : ℕ) : Bool :=
  let mi := cells.getD i (0, 0, 0)
  let mj := cells.getD j (0, 0, 0)
  decide (mi.2.1 = 0 ∧ mj.2.1 = 0 ∧ mi.2.2 = 0 ∧ mj.2.2 = 0 ∧
    ((mi.1 : ℤ) - (mj.1 : ℤ)).natAbs = 1)

/-- Embeds the `bottom[i,j]` test: both triangles in the lowermost row
(`nc[1]-1`), both sub-triangle 2, cell columns differing by exactly 1. -/
def Tesselation2D.bottom_flag (nc1 : ℕ) (cells : List (ℕ × ℕ × ℕ)) (i j : ℕ) : Bool :=
  let mi := cells.getD i (0, 0, 0)
  let mj := cells.getD j (0, 0, 0)
  decide (mi.2.1 = nc1 - 1 ∧ mj.2.1 = nc1 - 1 ∧ mi.2.2 = 2 ∧ mj.2.2 = 2 ∧
    ((mi.1 : ℤ) - (mj.1 : ℤ)).natAbs = 1)

/-- Recording condition of `Tesselation2D.find_verts_outside`: the pair shares
exactly one vertex and lies on a common external edge. -/
def Tesselation2D.outside_cond (nc0 nc1 : ℕ) (verts : List (List (List ℚ)))
    (cells : List (ℕ × ℕ × ℕ)) (i j : ℕ) : Bool :=
  decide ((sharedVerts (verts.getD i []) (verts.getD j [])).length = 1) &&
    (Tesselation2D.left_flag cells i j || Tesselation2D.right_flag nc0 cells i j ||
      Tesselation2D.top_flag cells i j || Tesselation2D.bottom_flag nc1 cells i j)

/-- Payload recorded by `Tesselation2D.find_verts_outside`: the shared vertex
together with the ghost vertex, obtained by subtracting 10 from its x
coordinate on the left/right edges and from its y coordinate on the
top/bottom edges.  The final branch is unreachable under `outside_cond`
(the source raises `ValueError` there). -/
def Tesselation2D.outside_payload (nc0 nc1 : ℕ) (verts : List (List (List ℚ)))
    (cells : List (ℕ × ℕ × ℕ)) (i j : ℕ) : List (List ℚ) :=
  let v := (sharedVerts (verts.getD i []) (verts.getD j [])).getD 0 []
  if Tesselation2D.left_flag cells i j || Tesselation2D.right_flag nc0 cells i j then
    [v, v.set 0 (v.getD 0 0 - 10)]
  else if Tesselation2D.top_flag cells i j || Tesselation2D.bottom_flag nc1 cells i j then
    [v, v.set 1 (v.getD 1 0 - 10)]
  else []

/-- Embeds the scan of `Tesselation2D.find_verts_outside`: the local
`shared_v, shared_v_idx` lists of virtual boundary pairs. -/
def Tesselation2D.find_verts_outside (nC nc0 nc1 : ℕ) (verts : List (List (List ℚ)))
    (cells : List (ℕ × ℕ × ℕ)) : List (List (List ℚ)) × List (ℕ × ℕ) :=
  pairScan nC (Tesselation2D.outside_cond nc0 nc1 verts cells)
    (Tesselation2D.outside_payload nc0 nc1 verts cells)

/-- Embeds the trailing `np.concatenate` of `find_verts_outside`.  numpy
raises `ValueError` when exactly one operand is the empty `(0,)`-shaped array
(the other being `(k, 2, 3)`-shaped); otherwise it appends. -/
def Tesselation2D.concat_outside
    (interior virt : List (List (List ℚ)) × List (ℕ × ℕ)) :
    Except Err (List (List (List ℚ)) × List (ℕ × ℕ)) :=
  if interior.1.isEmpty = virt.1.isEmpty
  then .ok (interior.1 ++ virt.1, interior.2 ++ virt.2)
  else .error .valueError

/-- Embeds `Tesselation2D.create_continuity_constrains`: for each recorded
pair `(i, j)` (with running index `count`), four rows — shared vertex 0 in the
x block, shared vertex 0 in the y block, shared vertex 1 in the x block,
shared vertex 1 in the y block — each placing the vertex in simplex `i`'s
half-block and its negation in simplex `j`'s. -/
def Tesselation2D.create_continuity_constrains (nC : ℕ)
    (shared_v : List (List (List ℚ))) (shared_v_idx : List (ℕ × ℕ)) : QMat :=
  ⟨6 * nC,
    shared_v_idx.enum.flatMap (fun x =>
      let i := x.2.1
      let j := x.2.2
      let v0 := (shared_v.getD x.1 []).getD 0 []
      let v1 := (shared_v.getD x.1 []).getD 1 []
      [setSlice (setSlice (List.replicate (6 * nC) 0) (6 * i) (v0 ++ [0, 0, 0]))
         (6 * j) (v0.map Neg.neg ++ [0, 0, 0]),
       setSlice (setSlice (List.replicate (6 * nC) 0) (6 * i) ([0, 0, 0] ++ v0))
         (6 * j) ([0, 0, 0] ++ v0.map Neg.neg),
       setSlice (setSlice (List.replicate (6 * nC) 0) (6 * i) (v1 ++ [0, 0, 0]))
         (6 * j) (v1.map Neg.neg ++ [0, 0, 0]),
       setSlice (setSlice (List.replicate (6 * nC) 0) (6 * i) ([0, 0, 0] ++ v1))
         (6 * j) ([0, 0, 0] ++ v1.map Neg.neg)])⟩

/-- Embeds `Tesselation2D.create_zero_boundary_constrains`: for each simplex
`c` and vertex `v`, a row `[0,0,0, v]` in block `c` when `v[0]` hits the x
bounds, then a row `[v, 0,0,0]` in block `c` when `v[1]` hits the y bounds. -/
def Tesselation2D.create_zero_boundary_constrains (nC : ℕ)
    (dmin0 dmin1 dmax0 dmax1 : ℚ) (verts : List (List (List ℚ))) : QMat :=
  ⟨6 * nC,
    (List.range nC).flatMap (fun c =>
      (verts.getD c []).flatMap (fun v =>
        (if v.getD 0 0 = dmin0 ∨ v.getD 0 0 = dmax0
         then [setSlice (List.replicate (6 * nC) 0) (6 * c) ([0, 0, 0] ++ v)]
         else []) ++
        (if v.getD 1 0 = dmin1 ∨ v.getD 1 0 = dmax1
         then [setSlice (List.replicate (6 * nC) 0) (6 * c) (v ++ [0, 0, 0])]
         else [])))⟩

/-- Result of a completed 2D construction. -/
structure Tess2D where
  L : QMat
  verts : List (List (List ℚ))
  cells : List (ℕ × ℕ × ℕ)
  shared_v : List (List (List ℚ))
  shared_v_idx : List (ℕ × ℕ)
deriving DecidableEq, Repr

/-- Embeds `Tesselation2D([nc0, nc1], [dmin0, dmin1], [dmax0, dmax1],
zero_boundary, volume_perservation)`: the fixed base-class pipeline, with the
virtual boundary scan run exactly when `zero_boundary` is false. -/
def Tesselation2D.construct (nc0 nc1 : ℕ) (dmin0 dmin1 dmax0 dmax1 : ℚ)
    (zero_boundary volume_perservation : Bool) : Except Err Tess2D := do
  let nC := 4 * (nc0 * nc1)
  let vc := Tesselation2D.find_verts nc0 nc1 dmin0 dmin1 dmax0 dmax1
  let sh0 := find_shared_verts 2 nC vc.1
  let sh ← (if zero_boundary then Except.ok sh0
    else Tesselation2D.concat_outside sh0
      (Tesselation2D.find_verts_outside nC nc0 nc1 vc.1 vc.2))
  let L0 := Tesselation2D.create_continuity_constrains nC sh.1 sh.2
  let L1 := if zero_boundary
    then vstackM L0 (Tesselation2D.create_zero_boundary_constrains nC
      dmin0 dmin1 dmax0 dmax1 vc.1)
    else L0
  let L2 := if volume_perservation
    then vstackM L1 (Tesselation.create_zero_trace_constrains 2 6 nC)
    else L1
  return ⟨L2, vc.1, vc.2, sh.1, sh.2⟩

/-!
3D tesselation (`Tesselation3D`, `nc = [nc0, nc1, nc2]`; `n_params = 12`,
`nC = 6*np.prod(nc)`, `ndim = 3`).
-/

/-- Embeds `Tesselation3D.find_verts`.  The source's `Vz` line reads
`Vz = np.linspace(self.domain_min[1], self.domain_max[1], self.nc[1]+1)`:
the z breakpoints are built from the y-axis bounds and the y-axis cell count.
The outer loop runs `i in range(nc[2])` and indexes `Vz[i+1]`, so whenever
`nc[2] > nc[1]` the access is out of range and Python raises `IndexError`. -/
def Tesselation3D.find_verts (nc0 nc1 nc2 : ℕ)
    (dmin0 dmin1 dmin2 dmax0 dmax1 dmax2 : ℚ) :
    Except Err (List (List (List ℚ)) × List (ℕ × ℕ × ℕ × ℕ)) :=
  let Vx := linspaceN dmin0 dmax0 (nc0 + 1)
  let Vy := linspaceN dmin1 dmax1 (nc1 + 1)
  let Vz := linspaceN dmin1 dmax1 (nc1 + 1)
  if nc2 ≤ nc1 then
    .ok ((List.range nc2).flatMap (fun i => (List.range nc1).flatMap (fun j =>
        (List.range nc0).flatMap (fun k =>
          let cnt := [(Vx.getD k 0 + Vx.getD (k + 1) 0) / 2,
                      (Vy.getD j 0 + Vy.getD (j + 1) 0) / 2,
                      (Vz.getD i 0 + Vz.getD (i + 1) 0) / 2, 1]
          let lnl := [Vx.getD k 0, Vy.getD j 0, Vz.getD i 0, 1]
          let lnu := [Vx.getD k 0, Vy.getD j 0, Vz.getD (i + 1) 0, 1]
          let lfl := [Vx.getD k 0, Vy.getD (j + 1) 0, Vz.getD i 0, 1]
          let lfu := [Vx.getD k 0, Vy.getD (j + 1) 0, Vz.getD (i + 1) 0, 1]
          let rnl := [Vx.getD (k + 1) 0, Vy.getD j 0, Vz.getD i 0, 1]
          let rnu := [Vx.getD (k + 1) 0, Vy.getD j 0, Vz.getD (i + 1) 0, 1]
          let rfl_v := [Vx.getD (k + 1) 0, Vy.getD (j + 1) 0, Vz.getD i 0, 1]
          let rfu := [Vx.getD (k + 1) 0, Vy.getD (j + 1) 0, Vz.getD (i + 1) 0, 1]
          [[cnt, lnl, lnu, lfl, lfu], [cnt, lnl, lnu, rnl, rnu],
           [cnt, lnl, lfl, rnl, rnu], [cnt, rnl, rnu, rfl_v, rfu],
           [cnt, lfl, lfu, rfl_v, rfu], [cnt, lnu, lfu, rnu, rfu]]))),
      (List.range nc2).flatMap (fun i => (List.range nc1).flatMap (fun j =>
        (List.range nc0).flatMap (fun k =>
          [(k, j, i, 0), (k, j, i, 1), (k, j, i, 2),
           (k, j, i, 3), (k, j, i, 4), (k, j, i, 5)]))))
  else .error .indexError

/-- Embeds `Tesselation3D.create_continuity_constrains`, which is written
generically in `self.ndim` and `self.n_params` (3 and 12 for the 3D class):
one row per recorded pair, shared-vertex index `vidx < ndim` and output
dimension `k < ndim`, the vertex at `n_params*i + k*(ndim+1)` and its
negation at `n_params*j + k*(ndim+1)`. -/
def Tesselation3D.create_continuity_constrains (ndim n_params nC : ℕ)
    (shared_v : List (List (List ℚ))) (shared_v_idx : List (ℕ × ℕ)) : QMat :=
  ⟨n_params * nC,
    shared_v_idx.enum.flatMap (fun x =>
      (List.range ndim).flatMap (fun vidx =>
        (List.range ndim).map (fun k =>
          let v := (shared_v.getD x.1 []).getD vidx []
          setSlice (setSlice (List.replicate (n_params * nC) 0)
              (n_params * x.2.1 + k * (ndim + 1)) v)
            (n_params * x.2.2 + k * (ndim + 1)) (v.map Neg.neg))))⟩

/-- Embeds `a / b` on Python numbers: `ZeroDivisionError` when `b = 0`. -/
def divE (a b : ℚ) : Except Err ℚ :=
  if b = 0 then .error .zeroDivisionError else .ok (a / b)

/-- Embeds the numpy slice assignment
`Ltemp[sr, c_idx*12 : (c_idx+1)*12] = vals` of the 3D boundary builder: the
slice is clipped to the matrix width and numpy broadcasts the right-hand side
only when its length equals the slice length (or is 1); any other length
raises `ValueError`. -/
def zbAssign (M : QMat) (sr c_idx : ℕ) (vals : List ℚ) : Except Err QMat :=
  let lo := min (c_idx * 12) M.ncols
  let hi := min ((c_idx + 1) * 12) M.ncols
  if vals.length = hi - lo ∨ vals.length = 1 then .ok (setRow M sr lo vals)
  else .error .valueError

/-- Embeds `Tesselation3D.create_zero_boundary_constrains` (faithful for
`nz ≥ 1`; the loop heads `[0, nz-1]`, `[0, ny-1]`, `[0, nx-1]` are Python
list literals).  It allocates
`np.zeros((2*((nx+1)*(ny+1) + (nx+1)*(nz+1) + (ny+1)*(nz+1)), 12*nC))` and
then writes, per boundary grid point, the 6-element vector `vrt + one_hot`
into a 12-column block slice — so the very first write raises `ValueError`
(or `ZeroDivisionError` earlier, from `i/(nz-1)` when `nz = 1` or from
`k/nx` when `nx = 0`). -/
def Tesselation3D.create_zero_boundary_constrains (nx ny nz : ℕ) : Except Err QMat := do
  let nC := 6 * (nx * (ny * nz))
  let M0 := zerosM (2 * ((nx + 1) * (ny + 1) + (nx + 1) * (nz + 1) + (ny + 1) * (nz + 1)))
    (12 * nC)
  let rxy ← ([0, nz - 1].flatMap (fun i => (List.range (ny + 1)).flatMap (fun j =>
      (List.range (nx + 1)).map (fun k => (i, j, k))))).foldlM
    (fun acc x => do
      let c0 := 6 * (nx * ny * x.1 + nx * (min x.2.1 (ny - 1)) + min x.2.2 (nx - 1)) +
        (if x.1 = 0 then 2 else 3)
      let v1 ← divE (x.2.2 : ℚ) (nx : ℚ)
      let v2 ← divE (x.2.1 : ℚ) (ny : ℚ)
      let v3 ← divE (x.1 : ℚ) ((nz : ℚ) - 1)
      let M ← zbAssign acc.1 acc.2 c0 [v1, v2, v3, 0, 0, 1]
      pure (M, acc.2 + 1)) (M0, 0)
  let rxz ← ([0, ny - 1].flatMap (fun j => (List.range (nz + 1)).flatMap (fun i =>
      (List.range (nx + 1)).map (fun k => (j, i, k))))).foldlM
    (fun acc x => do
      let c0 := 6 * (nx * ny * (min x.2.1 (nz - 1)) + nx * x.1 + min x.2.2 (nx - 1)) +
        (if x.1 = 0 then 1 else 4)
      let v1 ← divE (x.2.2 : ℚ) (nx : ℚ)
      let v2 ← divE (x.1 : ℚ) ((ny : ℚ) - 1)
      let v3 ← divE (x.2.1 : ℚ) (nz : ℚ)
      let M ← zbAssign acc.1 acc.2 c0 [v1, v2, v3, 0, 1, 0]
      pure (M, acc.2 + 1)) rxy
  let ryz ← ([0, nx - 1].flatMap (fun k => (List.range (nz + 1)).flatMap (fun i =>
      (List.range (ny + 1)).map (fun j => (k, i, j))))).foldlM
    (fun acc x => do
      let c0 := 6 * (nx * ny * (min x.2.1 (nz - 1)) + nx * (min x.2.2 (ny - 1)) + x.1) +
        (if x.1 = 0 then 0 else 5)
      let v1 ← divE (x.1 : ℚ) ((nx : ℚ) - 1)
      let v2 ← divE (x.2.2 : ℚ) (ny : ℚ)
      let v3 ← divE (x.2.1 : ℚ) (nz : ℚ)
      let M ← zbAssign acc.1 acc.2 c0 [v1, v2, v3, 1, 0, 0]
      pure (M, acc.2 + 1)) rxz
  return ryz.1

/-- Result of a completed 3D construction. -/
structure Tess3D where
  L : QMat
  verts : List (List (List ℚ))
  cells : List (ℕ × ℕ × ℕ × ℕ)
  shared_v : List (List (List ℚ))
  shared_v_idx : List (ℕ × ℕ)
deriving DecidableEq, Repr

/-- Embeds `Tesselation3D([nc0,nc1,nc2], ..., zero_boundary,
volume_perservation)`: the fixed base-class pipeline;
`Tesselation3D.find_verts_outside` (run when `zero_boundary` is false) is
`raise NotImplementedError`. -/
def Tesselation3D.construct (nc0 nc1 nc2 : ℕ)
    (dmin0 dmin1 dmin2 dmax0 dmax1 dmax2 : ℚ)
    (zero_boundary volume_perservation : Bool) : Except Err Tess3D := do
  let nC := 6 * (nc0 * (nc1 * nc2))
  let vc ← Tesselation3D.find_verts nc0 nc1 nc2 dmin0 dmin1 dmin2 dmax0 dmax1 dmax2
  let sh := find_shared_verts 3 nC vc.1
  let _ ← (if zero_boundary then Except.ok () else Except.error Err.notImplementedError)
  let L0 := Tesselation3D.create_continuity_constrains 3 12 nC sh.1 sh.2
  let L1 ← (if zero_boundary then do
      let zbM ← Tesselation3D.create_zero_boundary_constrains nc0 nc1 nc2
      pure (vstackM L0 zbM)
    else pure L0)
  let L2 := if volume_perservation
    then vstackM L1 (Tesselation.create_zero_trace_constrains 3 12 nC)
    else L1
  return ⟨L2, vc.1, vc.2, sh.1, sh.2⟩

/-!
Pointwise characterization of continuity rows.  Every continuity row of the
source is a zero row with one vertex written into a block of simplex `i` and
its negation into the matching block of simplex `j`.
-/

theorem eq_of_getD {l₁ l₂ : List ℚ} (hl : l₁.length = l₂.length)
    (h : ∀ c, l₁.getD c 0 = l₂.getD c 0) : l₁ = l₂ := by
  apply List.ext_getElem hl
  intro c h1 h2
  have := h c
  rwa [List.getD_eq_getElem?_getD, List.getD_eq_getElem?_getD,
    List.getElem?_eq_getElem h1, List.getElem?_eq_getElem h2] at this

theorem map_neg_getD (v : List ℚ) (x : ℕ) :
    (v.map Neg.neg).getD x 0 = -(v.getD x 0) := by
  rcases Nat.lt_or_ge x v.length with h | h
  · rw [List.getD_eq_getElem?_getD, List.getD_eq_getElem?_getD, List.getElem?_map,
      List.getElem?_eq_getElem h]
    rfl
  · rw [List.getD_eq_default _ _ (by rw [List.length_map]; omega),
      List.getD_eq_default _ _ h]
    norm_num

/-- Zero row of width `N` with `v1` written at `s1` and then `v2` at `s2`. -/
def twoBlock (N s1 : ℕ) (v1 : List ℚ) (s2 : ℕ) (v2 : List ℚ) : List ℚ :=
  setSlice (setSlice (List.replicate N 0) s1 v1) s2 v2

theorem twoBlock_length (N s1 : ℕ) (v1 : List ℚ) (s2 : ℕ) (v2 : List ℚ)
    (h1 : s1 + v1.length ≤ N) (h2 : s2 + v2.length ≤ N) :
    (twoBlock N s1 v1 s2 v2).length = N := by
  rw [twoBlock, setSlice_length, setSlice_length]
  · rw [List.length_replicate]
  · rw [List.length_replicate]
    exact h1
  · rw [setSlice_length _ _ _ (by rw [List.length_replicate]; exact h1),
      List.length_replicate]
    exact h2

theorem twoBlock_getD (N s1 : ℕ) (v1 : List ℚ) (s2 : ℕ) (v2 : List ℚ) (c : ℕ)
    (h1 : s1 + v1.length ≤ N) (h2 : s2 + v2.length ≤ N) :
    (twoBlock N s1 v1 s2 v2).getD c 0 =
      if s2 ≤ c ∧ c < s2 + v2.length then v2.getD (c - s2) 0
      else if s1 ≤ c ∧ c < s1 + v1.length then v1.getD (c - s1) 0
      else 0 := by
  have hlen1 : (setSlice (List.replicate N (0 : ℚ)) s1 v1).length = N := by
    rw [setSlice_length _ _ _ (by rw [List.length_replicate]; exact h1),
      List.length_replicate]
  rw [twoBlock, setSlice_getD _ _ _ _ (by rw [hlen1]; exact h2)]
  by_cases hc2 : s2 ≤ c ∧ c < s2 + v2.length
  · rw [if_pos hc2]
    rw [if_pos hc2]
  · rw [if_neg hc2, setSlice_getD _ _ _ _ (by rw [List.length_replicate]; exact h1)]
    rw [if_neg hc2]
    by_cases hc1 : s1 ≤ c ∧ c < s1 + v1.length
    · rw [if_pos hc1]
      rw [if_pos hc1]
    · rw [if_neg hc1, replicate_getD]
      rw [if_neg hc1]

/-- Value at column `c` of the continuity row described by the spec: the
homogeneous vertex `v` in output-dimension-`k`'s block of simplex `i`, its
negation in the matching block of simplex `j`, zero elsewhere. -/
def contVal (ndim n_params i j k : ℕ) (v : List ℚ) (c : ℕ) : ℚ :=
  if n_params * i + k * (ndim + 1) ≤ c ∧ c < n_params * i + k * (ndim + 1) + (ndim + 1)
  then v.getD (c - (n_params * i + k * (ndim + 1))) 0
  else if n_params * j + k * (ndim + 1) ≤ c ∧ c < n_params * j + k * (ndim + 1) + (ndim + 1)
  then -(v.getD (c - (n_params * j + k * (ndim + 1))) 0)
  else 0

/-- Continuity row described by the spec, as an explicit list of width
`n_params * nC`. -/
def contTarget (ndim n_params nC i j k : ℕ) (v : List ℚ) : List ℚ :=
  (List.range (n_params * nC)).map (contVal ndim n_params i j k v)

theorem contTarget_length (ndim n_params nC i j k : ℕ) (v : List ℚ) :
    (contTarget ndim n_params nC i j k v).length = n_params * nC := by
  rw [contTarget, List.length_map, List.length_range]

theorem contTarget_getD (ndim n_params nC i j k : ℕ) (v : List ℚ) (c : ℕ)
    (hc : c < n_params * nC) :
    (contTarget ndim n_params nC i j k v).getD c 0 = contVal ndim n_params i j k v c := by
  rw [contTarget, List.getD_eq_getElem?_getD, List.getElem?_map, List.getElem?_range hc]
  rfl

theorem block_bound (ndim nC i k : ℕ) (hi : i < nC) (hk : k < ndim) :
    ndim * (ndim + 1) * i + k * (ndim + 1) + (ndim + 1) ≤ ndim * (ndim + 1) * nC := by
  have h1 : k * (ndim + 1) + (ndim + 1) ≤ ndim * (ndim + 1) := by
    have : (k + 1) * (ndim + 1) ≤ ndim * (ndim + 1) :=
      Nat.mul_le_mul_right _ (by omega)
    calc k * (ndim + 1) + (ndim + 1) = (k + 1) * (ndim + 1) := by ring
      _ ≤ ndim * (ndim + 1) := this
  have h2 : ndim * (ndim + 1) * i + ndim * (ndim + 1) ≤ ndim * (ndim + 1) * nC := by
    calc ndim * (ndim + 1) * i + ndim * (ndim + 1) = ndim * (ndim + 1) * (i + 1) := by ring
      _ ≤ ndim * (ndim + 1) * nC := Nat.mul_le_mul_left _ (by omega)
  omega

theorem blocks_disjoint (ndim n_params i j k k' c : ℕ) (hnp : n_params = ndim * (ndim + 1))
    (hnd : 1 ≤ ndim) (hij : i ≠ j) (hk : k < ndim) (hk' : k' < ndim)
    (hci : n_params * i + k * (ndim + 1) ≤ c ∧
      c < n_params * i + k * (ndim + 1) + (ndim + 1))
    (hcj : n_params * j + k' * (ndim + 1) ≤ c ∧
      c < n_params * j + k' * (ndim + 1) + (ndim + 1)) : False := by
  subst hnp
  rcases Nat.lt_or_ge i j with h | h
  · have hmono : ndim * (ndim + 1) * (i + 1) ≤ ndim * (ndim + 1) * j :=
      Nat.mul_le_mul_left _ (by omega)
    have h1 : k * (ndim + 1) + (ndim + 1) ≤ ndim * (ndim + 1) := by
      calc k * (ndim + 1) + (ndim + 1) = (k + 1) * (ndim + 1) := by ring
        _ ≤ ndim * (ndim + 1) := Nat.mul_le_mul_right _ (by omega)
    have hexp : ndim * (ndim + 1) * (i + 1) = ndim * (ndim + 1) * i + ndim * (ndim + 1) := by
      ring
    omega
  · have hij2 : j < i := by omega
    have hmono : ndim * (ndim + 1) * (j + 1) ≤ ndim * (ndim + 1) * i :=
      Nat.mul_le_mul_left _ (by omega)
    have h1 : k' * (ndim + 1) + (ndim + 1) ≤ ndim * (ndim + 1) := by
      calc k' * (ndim + 1) + (ndim + 1) = (k' + 1) * (ndim + 1) := by ring
        _ ≤ ndim * (ndim + 1) := Nat.mul_le_mul_right _ (by omega)
    have hexp : ndim * (ndim + 1) * (j + 1) = ndim * (ndim + 1) * j + ndim * (ndim + 1) := by
      ring
    omega

theorem mul_add_inj (d a b a' b' : ℕ) (hb : b < d) (hb' : b' < d)
    (h : d * a + b = d * a' + b') : a = a' ∧ b = b' := by
  have hd : 0 < d := by omega
  have h1 : (d * a + b) / d = a := by
    rw [Nat.mul_add_div hd, Nat.div_eq_of_lt hb]
    omega
  have h2 : (d * a' + b') / d = a' := by
    rw [Nat.mul_add_div hd, Nat.div_eq_of_lt hb']
    omega
  have ha : a = a' := by rw [← h1, ← h2, h]
  subst ha
  omega

theorem contRow_eq_target (ndim nC i j k : ℕ) (v : List ℚ)
    (hnd : 1 ≤ ndim) (hij : i ≠ j) (hi : i < nC) (hj : j < nC) (hk : k < ndim)
    (hv : v.length = ndim + 1) :
    twoBlock (ndim * (ndim + 1) * nC) (ndim * (ndim + 1) * i + k * (ndim + 1)) v
        (ndim * (ndim + 1) * j + k * (ndim + 1)) (v.map Neg.neg) =
      contTarget ndim (ndim * (ndim + 1)) nC i j k v := by
  have hvm : (v.map Neg.neg).length = ndim + 1 := by rw [List.length_map, hv]
  have hbi : ndim * (ndim + 1) * i + k * (ndim + 1) + v.length ≤
      ndim * (ndim + 1) * nC := by
    rw [hv]
    have := block_bound ndim nC i k hi hk
    omega
  have hbj : ndim * (ndim + 1) * j + k * (ndim + 1) + (v.map Neg.neg).length ≤
      ndim * (ndim + 1) * nC := by
    rw [hvm]
    have := block_bound ndim nC j k hj hk
    omega
  apply eq_of_getD
  · rw [twoBlock_length _ _ _ _ _ hbi hbj, contTarget_length]
  · intro c
    rw [twoBlock_getD _ _ _ _ _ c hbi hbj]
    rcases Nat.lt_or_ge c (ndim * (ndim + 1) * nC) with hc | hc
    · rw [contTarget_getD _ _ _ _ _ _ _ _ hc, contVal]
      by_cases hcj : ndim * (ndim + 1) * j + k * (ndim + 1) ≤ c ∧
          c < ndim * (ndim + 1) * j + k * (ndim + 1) + (ndim + 1)
      · have hcj2 : ndim * (ndim + 1) * j + k * (ndim + 1) ≤ c ∧
            c < ndim * (ndim + 1) * j + k * (ndim + 1) + (v.map Neg.neg).length := by
          rw [hvm]; exact hcj
        have hci : ¬ (ndim * (ndim + 1) * i + k * (ndim + 1) ≤ c ∧
            c < ndim * (ndim + 1) * i + k * (ndim + 1) + (ndim + 1)) := by
          intro hci
          exact blocks_disjoint ndim (ndim * (ndim + 1)) i j k k c rfl hnd hij hk hk hci hcj
        rw [if_pos hcj2, if_neg hci, if_pos hcj, map_neg_getD]
      · have hcj2 : ¬ (ndim * (ndim + 1) * j + k * (ndim + 1) ≤ c ∧
            c < ndim * (ndim + 1) * j + k * (ndim + 1) + (v.map Neg.neg).length) := by
          rw [hvm]; exact hcj
        rw [if_neg hcj2]
        by_cases hci : ndim * (ndim + 1) * i + k * (ndim + 1) ≤ c ∧
            c < ndim * (ndim + 1) * i + k * (ndim + 1) + (ndim + 1)
        · have hci2 : ndim * (ndim + 1) * i + k * (ndim + 1) ≤ c ∧
              c < ndim * (ndim + 1) * i + k * (ndim + 1) + v.length := by
            rw [hv]; exact hci
          rw [if_pos hci2, if_pos hci]
        · have hci2 : ¬ (ndim * (ndim + 1) * i + k * (ndim + 1) ≤ c ∧
              c < ndim * (ndim + 1) * i + k * (ndim + 1) + v.length) := by
            rw [hv]; exact hci
          rw [if_neg hci2, if_neg hci, if_neg hcj]
    · have h0 : (contTarget ndim (ndim * (ndim + 1)) nC i j k v).getD c 0 = 0 := by
        rw [List.getD_eq_default]
        rw [contTarget_length]
        omega
      rw [h0]
      have hnc1 : ¬ (ndim * (ndim + 1) * j + k * (ndim + 1) ≤ c ∧
          c < ndim * (ndim + 1) * j + k * (ndim + 1) + (v.map Neg.neg).length) := by
        omega
      have hnc2 : ¬ (ndim * (ndim + 1) * i + k * (ndim + 1) ≤ c ∧
          c < ndim * (ndim + 1) * i + k * (ndim + 1) + v.length) := by
        omega
      rw [if_neg hnc1, if_neg hnc2]

theorem cont_block_eq (ndim i k i' k' r : ℕ) (hk : k < ndim) (hk' : k' < ndim)
    (hr : r < ndim + 1)
    (h : ndim * (ndim + 1) * i + k * (ndim + 1) + r =
      ndim * (ndim + 1) * i' + k' * (ndim + 1) + ndim) :
    i = i' ∧ k = k' ∧ r = ndim := by
  have e1 : ndim * (ndim + 1) * i + k * (ndim + 1) = (ndim + 1) * (ndim * i + k) := by
    ring
  have e2 : ndim * (ndim + 1) * i' + k' * (ndim + 1) = (ndim + 1) * (ndim * i' + k') := by
    ring
  have h1 : (ndim + 1) * (ndim * i + k) + r = (ndim + 1) * (ndim * i' + k') + ndim := by
    omega
  obtain ⟨h2, h3⟩ := mul_add_inj (ndim + 1) _ _ _ _ (by omega) (by omega) h1
  obtain ⟨h4, h5⟩ := mul_add_inj ndim i k i' k' hk hk' h2
  exact ⟨h4, h5, h3⟩

theorem contTarget_injective (ndim nC i j k i' j' k' : ℕ) (v v' : List ℚ)
    (hnd : 1 ≤ ndim) (hij : i ≠ j) (hij' : i' ≠ j')
    (hi : i < nC) (hj : j < nC) (hi' : i' < nC) (hj' : j' < nC)
    (hk : k < ndim) (hk' : k' < ndim)
    (hv : v.length = ndim + 1) (hv' : v'.length = ndim + 1)
    (hvh : v.getD ndim 0 = 1) (hvh' : v'.getD ndim 0 = 1)
    (heq : contTarget ndim (ndim * (ndim + 1)) nC i j k v =
      contTarget ndim (ndim * (ndim + 1)) nC i' j' k' v') :
    i = i' ∧ j = j' ∧ k = k' ∧ v = v' := by
  have hval : ∀ c, c < ndim * (ndim + 1) * nC →
      contVal ndim (ndim * (ndim + 1)) i j k v c =
      contVal ndim (ndim * (ndim + 1)) i' j' k' v' c := by
    intro c hc
    have h := congrArg (fun l => l.getD c 0) heq
    simp only at h
    rwa [contTarget_getD _ _ _ _ _ _ _ _ hc, contTarget_getD _ _ _ _ _ _ _ _ hc] at h
  -- Step 1: the +1 homogeneous column of the (i', k') block pins down i and k.
  have hik : i = i' ∧ k = k' := by
    have hbb := block_bound ndim nC i' k' hi' hk'
    have hrhs : contVal ndim (ndim * (ndim + 1)) i' j' k' v'
        (ndim * (ndim + 1) * i' + k' * (ndim + 1) + ndim) = 1 := by
      rw [contVal, if_pos (by omega)]
      have hsub : ndim * (ndim + 1) * i' + k' * (ndim + 1) + ndim -
          (ndim * (ndim + 1) * i' + k' * (ndim + 1)) = ndim := by omega
      rw [hsub, hvh']
    have h1 := hval (ndim * (ndim + 1) * i' + k' * (ndim + 1) + ndim) (by omega)
    rw [hrhs, contVal] at h1
    by_cases hci : ndim * (ndim + 1) * i + k * (ndim + 1) ≤
        ndim * (ndim + 1) * i' + k' * (ndim + 1) + ndim ∧
        ndim * (ndim + 1) * i' + k' * (ndim + 1) + ndim <
        ndim * (ndim + 1) * i + k * (ndim + 1) + (ndim + 1)
    · obtain ⟨ha, hb, _⟩ := cont_block_eq ndim i k i' k'
        (ndim * (ndim + 1) * i' + k' * (ndim + 1) + ndim -
          (ndim * (ndim + 1) * i + k * (ndim + 1))) hk hk' (by omega) (by omega)
      exact ⟨ha, hb⟩
    · rw [if_neg hci] at h1
      by_cases hcj : ndim * (ndim + 1) * j + k * (ndim + 1) ≤
          ndim * (ndim + 1) * i' + k' * (ndim + 1) + ndim ∧
          ndim * (ndim + 1) * i' + k' * (ndim + 1) + ndim <
          ndim * (ndim + 1) * j + k * (ndim + 1) + (ndim + 1)
      · rw [if_pos hcj] at h1
        obtain ⟨_, _, hr⟩ := cont_block_eq ndim j k i' k'
          (ndim * (ndim + 1) * i' + k' * (ndim + 1) + ndim -
            (ndim * (ndim + 1) * j + k * (ndim + 1))) hk hk' (by omega) (by omega)
        rw [hr, hvh] at h1
        norm_num at h1
      · rw [if_neg hcj] at h1
        norm_num at h1
  obtain ⟨hii, hkk⟩ := hik
  subst hii
  subst hkk
  -- Step 2: the -1 homogeneous column of the (j', k) block pins down j.
  have hjj : j = j' := by
    have hbb := block_bound ndim nC j' k hj' hk
    have hci' : ¬ (ndim * (ndim + 1) * i + k * (ndim + 1) ≤
        ndim * (ndim + 1) * j' + k * (ndim + 1) + ndim ∧
        ndim * (ndim + 1) * j' + k * (ndim + 1) + ndim <
        ndim * (ndim + 1) * i + k * (ndim + 1) + (ndim + 1)) := by
      intro hci
      exact blocks_disjoint ndim (ndim * (ndim + 1)) i j' k k
        (ndim * (ndim + 1) * j' + k * (ndim + 1) + ndim) rfl hnd hij' hk hk hci
        (by omega)
    have hrhs : contVal ndim (ndim * (ndim + 1)) i j' k v'
        (ndim * (ndim + 1) * j' + k * (ndim + 1) + ndim) = -1 := by
      rw [contVal, if_neg hci', if_pos (by omega)]
      have hsub : ndim * (ndim + 1) * j' + k * (ndim + 1) + ndim -
          (ndim * (ndim + 1) * j' + k * (ndim + 1)) = ndim := by omega
      rw [hsub, hvh']
    have h2 := hval (ndim * (ndim + 1) * j' + k * (ndim + 1) + ndim) (by omega)
    rw [hrhs, contVal] at h2
    by_cases hci : ndim * (ndim + 1) * i + k * (ndim + 1) ≤
        ndim * (ndim + 1) * j' + k * (ndim + 1) + ndim ∧
        ndim * (ndim + 1) * j' + k * (ndim + 1) + ndim <
        ndim * (ndim + 1) * i + k * (ndim + 1) + (ndim + 1)
    · rw [if_pos hci] at h2
      obtain ⟨_, _, hr⟩ := cont_block_eq ndim i k j' k
        (ndim * (ndim + 1) * j' + k * (ndim + 1) + ndim -
          (ndim * (ndim + 1) * i + k * (ndim + 1))) hk hk (by omega) (by omega)
      rw [hr, hvh] at h2
      norm_num at h2
    · rw [if_neg hci] at h2
      by_cases hcj : ndim * (ndim + 1) * j + k * (ndim + 1) ≤
          ndim * (ndim + 1) * j' + k * (ndim + 1) + ndim ∧
          ndim * (ndim + 1) * j' + k * (ndim + 1) + ndim <
          ndim * (ndim + 1) * j + k * (ndim + 1) + (ndim + 1)
      · obtain ⟨ha, _, _⟩ := cont_block_eq ndim j k j' k
          (ndim * (ndim + 1) * j' + k * (ndim + 1) + ndim -
            (ndim * (ndim + 1) * j + k * (ndim + 1))) hk hk (by omega) (by omega)
        exact ha
      · rw [if_neg hcj] at h2
        norm_num at h2
  subst hjj
  -- Step 3: the shared (i, k) block pins down the vertex.
  refine ⟨rfl, rfl, rfl, ?_⟩
  apply eq_of_getD (by omega)
  intro t
  rcases Nat.lt_or_ge t (ndim + 1) with ht | ht
  · have hbb := block_bound ndim nC i k hi hk
    have h3 := hval (ndim * (ndim + 1) * i + k * (ndim + 1) + t) (by omega)
    have hsub : ndim * (ndim + 1) * i + k * (ndim + 1) + t -
        (ndim * (ndim + 1) * i + k * (ndim + 1)) = t := by omega
    rw [contVal, contVal, if_pos (by omega)] at h3
    rw [if_pos (by omega)] at h3
    rwa [hsub] at h3
  · rw [List.getD_eq_default _ _ (by omega), List.getD_eq_default _ _ (by omega)]

theorem getD_mem_of_lt {α : Type} [Inhabited α] (l : List α) (n : ℕ) (d : α)
    (h : n < l.length) : l.getD n d ∈ l := by
  rw [List.getD_eq_getElem?_getD, List.getElem?_eq_getElem h]
  exact List.getElem_mem h

theorem length_flatMap_const {α β : Type} (l : List α) (f : α → List β) (m : ℕ)
    (h : ∀ a ∈ l, (f a).length = m) : (l.flatMap f).length = l.length * m := by
  induction l with
  | nil => simp
  | cons a tl ih =>
    rw [List.flatMap_cons, List.length_append, h a (List.mem_cons_self _ _),
      ih (fun x hx => h x (List.mem_cons_of_mem _ hx)), List.length_cons]
    ring

theorem count_flatMap_eq_zero {α β : Type} [BEq β] [LawfulBEq β] (l : List α)
    (f : α → List β) (b : β) (h : ∀ a ∈ l, (f a).count b = 0) :
    (l.flatMap f).count b = 0 := by
  induction l with
  | nil => simp
  | cons a tl ih =>
    rw [List.flatMap_cons, List.count_append, h a (List.mem_cons_self _ _),
      ih (fun x hx => h x (List.mem_cons_of_mem _ hx))]

theorem count_flatMap_eq_one {α β : Type} [BEq β] [LawfulBEq β] (l : List α)
    (f : α → List β) (b : β) (a0 : α) (hmem : a0 ∈ l) (hnd : l.Nodup)
    (hone : (f a0).count b = 1)
    (hzero : ∀ a ∈ l, a ≠ a0 → (f a).count b = 0) :
    (l.flatMap f).count b = 1 := by
  induction l with
  | nil => cases hmem
  | cons a tl ih =>
    rw [List.flatMap_cons, List.count_append]
    rcases List.mem_cons.1 hmem with h0 | h0
    · subst h0
      rw [hone, count_flatMap_eq_zero tl f b]
      intro x hx
      apply hzero x (List.mem_cons_of_mem _ hx)
      intro hxx
      subst hxx
      exact (List.nodup_cons.1 hnd).1 hx
    · rw [hzero a (List.mem_cons_self _ _) (by
        intro haa
        subst haa
        exact (List.nodup_cons.1 hnd).1 h0)]
      rw [ih h0 (List.nodup_cons.1 hnd).2
        (fun x hx hne => hzero x (List.mem_cons_of_mem _ hx) hne)]

theorem count_map_eq_one {α β : Type} [BEq β] [LawfulBEq β] (l : List α) (g : α → β)
    (a0 : α) (hmem : a0 ∈ l) (hnd : l.Nodup)
    (hinj : ∀ a ∈ l, g a = g a0 → a = a0) :
    (l.map g).count (g a0) = 1 := by
  induction l with
  | nil => cases hmem
  | cons a tl ih =>
    rw [List.map_cons]
    rcases List.mem_cons.1 hmem with h0 | h0
    · subst h0
      rw [List.count_cons_self]
      have : (tl.map g).count (g a0) = 0 := by
        rw [List.count_eq_zero]
        intro hmem2
        rcases List.mem_map.1 hmem2 with ⟨x, hx, hgx⟩
        have := hinj x (List.mem_cons_of_mem _ hx) hgx
        subst this
        exact (List.nodup_cons.1 hnd).1 hx
      rw [this]
    · rw [List.count_cons_of_ne (by
        intro hga
        have := hinj a (List.mem_cons_self _ _) hga.symm
        subst this
        exact (List.nodup_cons.1 hnd).1 h0)]
      exact ih h0 (List.nodup_cons.1 hnd).2
        (fun x hx hg => hinj x (List.mem_cons_of_mem _ hx) hg)

theorem count_map_eq_zero {α β : Type} [BEq β] [LawfulBEq β] (l : List α) (g : α → β)
    (b : β) (h : ∀ a ∈ l, g a ≠ b) : (l.map g).count b = 0 := by
  rw [List.count_eq_zero]
  intro hmem
  rcases List.mem_map.1 hmem with ⟨x, hx, hgx⟩
  exact h x hx hgx

/-- The row list built by the generic (2D/3D) continuity assembler is exactly
the list of spec-described rows, one per (recorded pair, shared-vertex index,
output dimension), in that nesting order. -/
theorem create_continuity_ND_rows (ndim nC : ℕ) (sv : List (List (List ℚ)))
    (si : List (ℕ × ℕ)) (hnd : 1 ≤ ndim) (hlen : si.length = sv.length)
    (hpair : ∀ p ∈ si, p.1 ≠ p.2 ∧ p.1 < nC ∧ p.2 < nC)
    (hdim : ∀ V ∈ sv, V.length = ndim)
    (hvert : ∀ V ∈ sv, ∀ v ∈ V, v.length = ndim + 1) :
    (Tesselation3D.create_continuity_constrains ndim (ndim * (ndim + 1)) nC sv si).rows =
      si.enum.flatMap (fun x => (List.range ndim).flatMap (fun vidx =>
        (List.range ndim).map (fun k =>
          contTarget ndim (ndim * (ndim + 1)) nC x.2.1 x.2.2 k
            ((sv.getD x.1 []).getD vidx [])))) := by
  rw [Tesselation3D.create_continuity_constrains]
  apply flatMap_congr
  intro x hx
  have hx2 : si[x.1]? = some x.2 := List.mem_enum_iff_getElem?.1 hx
  have hx1 : x.1 < si.length := by
    rcases List.getElem?_eq_some_iff.1 hx2 with ⟨h, _⟩
    exact h
  have hxmem : x.2 ∈ si := List.getElem?_mem hx2
  obtain ⟨hne, hilt, hjlt⟩ := hpair x.2 hxmem
  have hVmem : sv.getD x.1 [] ∈ sv := getD_mem_of_lt sv x.1 [] (by omega)
  apply flatMap_congr
  intro vidx hvidx
  rw [List.mem_range] at hvidx
  apply List.map_congr_left
  intro k hk
  rw [List.mem_range] at hk
  have hvmem : (sv.getD x.1 []).getD vidx [] ∈ sv.getD x.1 [] := by
    apply getD_mem_of_lt
    rw [hdim _ hVmem]
    exact hvidx
  have hvlen : ((sv.getD x.1 []).getD vidx []).length = ndim + 1 :=
    hvert _ hVmem _ hvmem
  exact contRow_eq_target ndim nC x.2.1 x.2.2 k _ hnd hne hilt hjlt hk hvlen

/-- Row count of the generic continuity assembler: `ndim * ndim` rows per
recorded pair (`ndim` output dimensions times the `ndim` shared vertices). -/
theorem create_continuity_ND_length (ndim n_params nC : ℕ)
    (sv : List (List (List ℚ))) (si : List (ℕ × ℕ)) :
    (Tesselation3D.create_continuity_constrains ndim n_params nC sv si).rows.length =
      ndim * ndim * si.length := by
  rw [Tesselation3D.create_continuity_constrains]
  show (si.enum.flatMap _).length = _
  rw [length_flatMap_const _ _ (ndim * ndim), List.enum_length]
  · ring
  · intro a _
    rw [length_flatMap_const _ _ ndim, List.length_range]
    intro b _
    rw [List.length_map, List.length_range]

theorem getD_eq_get {α : Type} (l : List α) (n : ℕ) (d : α) (h : n < l.length) :
    l.getD n d = l.get ⟨n, h⟩ := by
  rw [List.getD_eq_getElem?_getD, List.getElem?_eq_getElem h, List.get_eq_getElem]
  rfl

/-- Uniqueness of continuity rows: for each recorded pair `p = (i, j)`, shared
vertex `v` and output dimension `k`, exactly one row of the assembled block is
the spec-described row. -/
theorem create_continuity_ND_count (ndim nC : ℕ) (sv : List (List (List ℚ)))
    (si : List (ℕ × ℕ)) (hnd : 1 ≤ ndim) (hlen : si.length = sv.length)
    (hpair : ∀ q ∈ si, q.1 ≠ q.2 ∧ q.1 < nC ∧ q.2 < nC)
    (hdim : ∀ V ∈ sv, V.length = ndim)
    (hvert : ∀ V ∈ sv, ∀ v ∈ V, v.length = ndim + 1)
    (hnodupV : ∀ V ∈ sv, V.Nodup) (hnodupI : si.Nodup)
    (hhom : ∀ V ∈ sv, ∀ v ∈ V, v.getD ndim 0 = 1)
    (p : ℕ) (hp : p < si.length) (v : List ℚ) (hv : v ∈ sv.getD p [])
    (k : ℕ) (hk : k < ndim) :
    (Tesselation3D.create_continuity_constrains ndim (ndim * (ndim + 1)) nC sv si).rows.count
      (contTarget ndim (ndim * (ndim + 1)) nC (si.getD p (0, 0)).1 (si.getD p (0, 0)).2 k v)
      = 1 := by
  have hVmem : sv.getD p [] ∈ sv := getD_mem_of_lt sv p [] (by omega)
  have hgetp : si.getD p (0, 0) = si[p] := by
    rw [List.getD_eq_getElem?_getD, List.getElem?_eq_getElem hp]
    rfl
  obtain ⟨hne, hilt, hjlt⟩ := hpair (si.getD p (0, 0)) (by
    rw [hgetp]; exact List.getElem_mem hp)
  have hvlen : v.length = ndim + 1 := hvert _ hVmem _ hv
  have hvhom : v.getD ndim 0 = 1 := hhom _ hVmem _ hv
  have hentry : ∀ (q : ℕ), q < si.length → ∀ vidx, vidx < ndim →
      ((sv.getD q []).getD vidx [] ∈ sv.getD q [] ∧
        ((sv.getD q []).getD vidx []).length = ndim + 1 ∧
        ((sv.getD q []).getD vidx []).getD ndim 0 = 1) := by
    intro q hq vidx hvidx
    have hVq : sv.getD q [] ∈ sv := getD_mem_of_lt sv q [] (by omega)
    have hm : (sv.getD q []).getD vidx [] ∈ sv.getD q [] := by
      apply getD_mem_of_lt
      rw [hdim _ hVq]
      exact hvidx
    exact ⟨hm, hvert _ hVq _ hm, hhom _ hVq _ hm⟩
  rw [create_continuity_ND_rows ndim nC sv si hnd hlen hpair hdim hvert]
  apply count_flatMap_eq_one _ _ _ (p, si.getD p (0, 0))
  · rw [List.mem_enum_iff_getElem?]
    rw [hgetp, List.getElem?_eq_getElem hp]
  · exact (List.nodup_enum_map_fst si).of_map
  · -- the block of pair p contains the row exactly once
    obtain ⟨vidx0, hvidx0lt, hvidx0⟩ := List.mem_iff_getElem.1 hv
    have hvidx0lt' : vidx0 < ndim := by
      have := hdim _ hVmem
      omega
    have hgd : (sv.getD p []).getD vidx0 [] = v := by
      rw [List.getD_eq_getElem?_getD, List.getElem?_eq_getElem hvidx0lt, hvidx0]
      rfl
    apply count_flatMap_eq_one _ _ _ vidx0
    · rw [List.mem_range]; exact hvidx0lt'
    · exact List.nodup_range ndim
    · dsimp only
      rw [hgd]
      exact count_map_eq_one (List.range ndim)
        (fun k2 => contTarget ndim (ndim * (ndim + 1)) nC (si.getD p (0, 0)).1
          (si.getD p (0, 0)).2 k2 v) k (by rw [List.mem_range]; exact hk)
        (List.nodup_range ndim)
        (fun k' hk' heq2 => by
          rw [List.mem_range] at hk'
          obtain ⟨_, _, hkk, _⟩ := contTarget_injective ndim nC _ _ k' _ _ k v v hnd
            hne hne hilt hjlt hilt hjlt hk' hk hvlen hvlen hvhom hvhom heq2
          exact hkk)
    · intro vidx' hvidx2 hne'
      rw [List.mem_range] at hvidx2
      dsimp only
      apply count_map_eq_zero
      intro k' hk' heq2
      rw [List.mem_range] at hk'
      obtain ⟨hm', hl', hh'⟩ := hentry p hp vidx' hvidx2
      obtain ⟨_, _, _, hvv⟩ := contTarget_injective ndim nC _ _ k' _ _ k _ v hnd
        hne hne hilt hjlt hilt hjlt hk' hk hl' hvlen hh' hvhom heq2
      apply hne'
      have hlt' : vidx' < (sv.getD p []).length := by
        rw [hdim _ hVmem]
        exact hvidx2
      have hg1 : (sv.getD p []).get ⟨vidx', hlt'⟩ = v := by
        rw [← getD_eq_get _ _ ([] : List ℚ) hlt']
        exact hvv
      have hg0 : (sv.getD p []).get ⟨vidx0, hvidx0lt⟩ = v := by
        rw [List.get_eq_getElem]
        exact hvidx0
      have hgg : (sv.getD p []).get ⟨vidx', hlt'⟩ = (sv.getD p []).get ⟨vidx0, hvidx0lt⟩ := by
        rw [hg1, hg0]
      have hfin := ((hnodupV _ hVmem).get_inj_iff).1 hgg
      exact congrArg Fin.val hfin
  · -- blocks of other pairs do not contain the row
    intro x hx hxne
    have hx2 : si[x.1]? = some x.2 := List.mem_enum_iff_getElem?.1 hx
    have hx1 : x.1 < si.length := by
      rcases List.getElem?_eq_some_iff.1 hx2 with ⟨h, _⟩
      exact h
    have hx2e : si[x.1] = x.2 := by
      rcases List.getElem?_eq_some_iff.1 hx2 with ⟨h, he⟩
      exact he
    obtain ⟨hne', hilt', hjlt'⟩ := hpair x.2 (List.getElem?_mem hx2)
    apply count_flatMap_eq_zero
    intro vidx' hvidx'
    rw [List.mem_range] at hvidx'
    apply count_map_eq_zero
    intro k' hk' heq2
    rw [List.mem_range] at hk'
    obtain ⟨hm', hl', hh'⟩ := hentry x.1 hx1 vidx' hvidx'
    obtain ⟨hii, hjj, _, _⟩ := contTarget_injective ndim nC _ _ k' _ _ k _ v hnd
      hne' hne hilt' hjlt' hilt hjlt hk' hk hl' hvlen hh' hvhom heq2
    apply hxne
    have hxx : x.2 = si.getD p (0, 0) := Prod.ext hii hjj
    have hxp : x.1 = p := by
      by_contra hcon
      have hsi : si[x.1] = si[p] := by
        rw [hx2e, hxx, hgetp]
      exact hcon ((hnodupI.getElem_inj_iff).1 hsi)
    exact Prod.ext hxp hxx

theorem triple_zero_getD (x : ℕ) : ([0, 0, 0] : List ℚ).getD x 0 = 0 := by
  rcases x with _ | x
  · rfl
  rcases x with _ | x
  · rfl
  rcases x with _ | x
  · rfl
  · rfl

theorem append_zeros_getD (v : List ℚ) (hv : v.length = 3) (r : ℕ) :
    (v ++ [0, 0, 0]).getD r 0 = if r < 3 then v.getD r 0 else 0 := by
  rcases Nat.lt_or_ge r 3 with h | h
  · rw [if_pos h, List.getD_eq_getElem?_getD, List.getElem?_append_left (by omega),
      ← List.getD_eq_getElem?_getD]
  · rw [if_neg (by omega), List.getD_eq_getElem?_getD,
      List.getElem?_append_right (by omega), hv, ← List.getD_eq_getElem?_getD,
      triple_zero_getD]

theorem zeros_append_getD (v : List ℚ) (r : ℕ) :
    (([0, 0, 0] : List ℚ) ++ v).getD r 0 = if r < 3 then 0 else v.getD (r - 3) 0 := by
  rcases Nat.lt_or_ge r 3 with h | h
  · rw [if_pos h, List.getD_eq_getElem?_getD, List.getElem?_append_left (by
      show r < ([0, 0, 0] : List ℚ).length
      simp
      omega), ← List.getD_eq_getElem?_getD, triple_zero_getD]
  · rw [if_neg (by omega), List.getD_eq_getElem?_getD,
      List.getElem?_append_right (by
        simp only [List.length_cons, List.length_nil]
        omega),
      ← List.getD_eq_getElem?_getD]
    have : r - ([0, 0, 0] : List ℚ).length = r - 3 := by simp
    rw [this]

theorem twoBlock_pad_lo (nC i j : ℕ) (v : List ℚ) (hij : i ≠ j) (hi : i < nC)
    (hj : j < nC) (hv : v.length = 3) :
    twoBlock (6 * nC) (6 * i) (v ++ [0, 0, 0]) (6 * j) (v.map Neg.neg ++ [0, 0, 0]) =
      twoBlock (6 * nC) (6 * i) v (6 * j) (v.map Neg.neg) := by
  have hvm : (v.map Neg.neg).length = 3 := by rw [List.length_map, hv]
  have hl1 : (v ++ [0, 0, 0]).length = 6 := by simp [hv]
  have hl2 : (v.map Neg.neg ++ [0, 0, 0]).length = 6 := by simp [hvm]
  have hbi : 6 * i + 6 ≤ 6 * nC := by omega
  have hbj : 6 * j + 6 ≤ 6 * nC := by omega
  apply eq_of_getD
  · rw [twoBlock_length _ _ _ _ _ (by omega) (by omega),
      twoBlock_length _ _ _ _ _ (by omega) (by omega)]
  · intro c
    rw [twoBlock_getD _ _ _ _ _ c (by omega) (by omega),
      twoBlock_getD _ _ _ _ _ c (by omega) (by omega), hl1, hl2, hvm, hv]
    by_cases hA : 6 * j ≤ c ∧ c < 6 * j + 6
    · rw [if_pos hA, append_zeros_getD _ hvm]
      by_cases hr : c - 6 * j < 3
      · have hA3 : 6 * j ≤ c ∧ c < 6 * j + 3 := by omega
        rw [if_pos hr, if_pos hA3]
      · have hA3n : ¬ (6 * j ≤ c ∧ c < 6 * j + 3) := by omega
        have hB3n : ¬ (6 * i ≤ c ∧ c < 6 * i + 3) := by omega
        rw [if_neg hr, if_neg hA3n, if_neg hB3n]
    · have hA3n : ¬ (6 * j ≤ c ∧ c < 6 * j + 3) := by omega
      rw [if_neg hA]
      by_cases hB : 6 * i ≤ c ∧ c < 6 * i + 6
      · rw [if_pos hB, append_zeros_getD _ hv]
        by_cases hr : c - 6 * i < 3
        · have hB3 : 6 * i ≤ c ∧ c < 6 * i + 3 := by omega
          rw [if_pos hr, if_neg hA3n, if_pos hB3]
        · have hB3n : ¬ (6 * i ≤ c ∧ c < 6 * i + 3) := by omega
          rw [if_neg hr, if_neg hA3n, if_neg hB3n]
      · have hB3n : ¬ (6 * i ≤ c ∧ c < 6 * i + 3) := by omega
        rw [if_neg hB, if_neg hA3n, if_neg hB3n]

theorem twoBlock_pad_hi (nC i j : ℕ) (v : List ℚ) (hij : i ≠ j) (hi : i < nC)
    (hj : j < nC) (hv : v.length = 3) :
    twoBlock (6 * nC) (6 * i) ([0, 0, 0] ++ v) (6 * j) ([0, 0, 0] ++ v.map Neg.neg) =
      twoBlock (6 * nC) (6 * i + 3) v (6 * j + 3) (v.map Neg.neg) := by
  have hvm : (v.map Neg.neg).length = 3 := by rw [List.length_map, hv]
  have hl1 : (([0, 0, 0] : List ℚ) ++ v).length = 6 := by simp [hv]
  have hl2 : (([0, 0, 0] : List ℚ) ++ v.map Neg.neg).length = 6 := by simp [hvm]
  have hbi : 6 * i + 6 ≤ 6 * nC := by omega
  have hbj : 6 * j + 6 ≤ 6 * nC := by omega
  apply eq_of_getD
  · rw [twoBlock_length _ _ _ _ _ (by omega) (by omega),
      twoBlock_length _ _ _ _ _ (by omega) (by omega)]
  · intro c
    rw [twoBlock_getD _ _ _ _ _ c (by omega) (by omega),
      twoBlock_getD _ _ _ _ _ c (by omega) (by omega), hl1, hl2, hvm, hv]
    by_cases hA : 6 * j ≤ c ∧ c < 6 * j + 6
    · rw [if_pos hA, zeros_append_getD]
      by_cases hr : c - 6 * j < 3
      · have hA3n : ¬ (6 * j + 3 ≤ c ∧ c < 6 * j + 3 + 3) := by omega
        have hB3n : ¬ (6 * i + 3 ≤ c ∧ c < 6 * i + 3 + 3) := by omega
        rw [if_pos hr, if_neg hA3n, if_neg hB3n]
      · have hA3 : 6 * j + 3 ≤ c ∧ c < 6 * j + 3 + 3 := by omega
        rw [if_neg hr, if_pos hA3]
        have he : c - 6 * j - 3 = c - (6 * j + 3) := by omega
        rw [he]
    · have hA3n : ¬ (6 * j + 3 ≤ c ∧ c < 6 * j + 3 + 3) := by omega
      rw [if_neg hA]
      by_cases hB : 6 * i ≤ c ∧ c < 6 * i + 6
      · rw [if_pos hB, zeros_append_getD]
        by_cases hr : c - 6 * i < 3
        · have hB3n : ¬ (6 * i + 3 ≤ c ∧ c < 6 * i + 3 + 3) := by omega
          rw [if_pos hr, if_neg hA3n, if_neg hB3n]
        · have hB3 : 6 * i + 3 ≤ c ∧ c < 6 * i + 3 + 3 := by omega
          rw [if_neg hr, if_neg hA3n, if_pos hB3]
          have he : c - 6 * i - 3 = c - (6 * i + 3) := by omega
          rw [he]
      · have hB3n : ¬ (6 * i + 3 ≤ c ∧ c < 6 * i + 3 + 3) := by omega
        rw [if_neg hB, if_neg hA3n, if_neg hB3n]

/-- The explicit four rows per pair of the 2D continuity builder coincide with
the generic (`ndim = 2`, `n_params = 6`) builder used verbatim by the 3D
class. -/
theorem create_continuity_2D_eq_ND (nC : ℕ) (sv : List (List (List ℚ)))
    (si : List (ℕ × ℕ)) (hlen : si.length = sv.length)
    (hpair : ∀ q ∈ si, q.1 ≠ q.2 ∧ q.1 < nC ∧ q.2 < nC)
    (hdim : ∀ V ∈ sv, V.length = 2)
    (hvert : ∀ V ∈ sv, ∀ v ∈ V, v.length = 3) :
    Tesselation2D.create_continuity_constrains nC sv si =
      Tesselation3D.create_continuity_constrains 2 6 nC sv si := by
  rw [Tesselation2D.create_continuity_constrains,
    Tesselation3D.create_continuity_constrains]
  apply congrArg (QMat.mk (6 * nC))
  apply flatMap_congr
  rintro ⟨idx, i, j⟩ hx
  have hx2 : si[idx]? = some (i, j) := List.mem_enum_iff_getElem?.1 hx
  have hidx : idx < si.length := by
    rcases List.getElem?_eq_some_iff.1 hx2 with ⟨h, _⟩
    exact h
  obtain ⟨hne, hilt, hjlt⟩ := hpair (i, j) (List.getElem?_mem hx2)
  have hVmem : sv.getD idx [] ∈ sv := getD_mem_of_lt sv idx [] (by omega)
  have hVlen : (sv.getD idx []).length = 2 := hdim _ hVmem
  have hv0m : (sv.getD idx []).getD 0 [] ∈ sv.getD idx [] :=
    getD_mem_of_lt _ 0 [] (by omega)
  have hv1m : (sv.getD idx []).getD 1 [] ∈ sv.getD idx [] :=
    getD_mem_of_lt _ 1 [] (by omega)
  have hv0 : ((sv.getD idx []).getD 0 []).length = 3 := hvert _ hVmem _ hv0m
  have hv1 : ((sv.getD idx []).getD 1 []).length = 3 := hvert _ hVmem _ hv1m
  have e1 := twoBlock_pad_lo nC i j ((sv.getD idx []).getD 0 []) hne hilt hjlt hv0
  have e2 := twoBlock_pad_hi nC i j ((sv.getD idx []).getD 0 []) hne hilt hjlt hv0
  have e3 := twoBlock_pad_lo nC i j ((sv.getD idx []).getD 1 []) hne hilt hjlt hv1
  have e4 := twoBlock_pad_hi nC i j ((sv.getD idx []).getD 1 []) hne hilt hjlt hv1
  simp only [twoBlock] at e1 e2 e3 e4
  dsimp only
  rw [e1, e2, e3, e4]
  rfl

/-- C1: for every valid configuration and recorded adjacency pair `(i, j)`
with shared vertex set `V`, and for each shared vertex `v ∈ V` and output
dimension `k < ndim`, the continuity block contains exactly one row placing
the homogeneous vertex `v` at columns
`[i*n_params + k*(ndim+1), i*n_params + (k+1)*(ndim+1))` and `-v` at the
analogous columns of `j`, all other entries zero (`contTarget` is that row,
stated pointwise); the block has `ndim * |V| = ndim * ndim` rows per pair.
The second conjunct shows the explicit 2D builder emits exactly the rows of
the generic builder, so the statement covers both the 2D and the 3D source
methods. -/
theorem claim_C1_continuity_rows :
    (∀ (ndim nC : ℕ) (sv : List (List (List ℚ))) (si : List (ℕ × ℕ)),
      1 ≤ ndim → si.length = sv.length →
      (∀ q ∈ si, q.1 < q.2 ∧ q.2 < nC) →
      (∀ V ∈ sv, V.length = ndim ∧ V.Nodup) →
      (∀ V ∈ sv, ∀ v ∈ V, v.length = ndim + 1 ∧ v.getD ndim 0 = 1) →
      si.Nodup →
      ((Tesselation3D.create_continuity_constrains ndim (ndim * (ndim + 1)) nC sv si).rows.length
          = ndim * ndim * si.length ∧
        ∀ p, p < si.length → ∀ v ∈ sv.getD p [], ∀ k, k < ndim →
          (Tesselation3D.create_continuity_constrains ndim (ndim * (ndim + 1)) nC sv si).rows.count
            (contTarget ndim (ndim * (ndim + 1)) nC (si.getD p (0, 0)).1
              (si.getD p (0, 0)).2 k v) = 1)) ∧
    (∀ (nC : ℕ) (sv : List (List (List ℚ))) (si : List (ℕ × ℕ)),
      si.length = sv.length →
      (∀ q ∈ si, q.1 < q.2 ∧ q.2 < nC) →
      (∀ V ∈ sv, V.length = 2) →
      (∀ V ∈ sv, ∀ v ∈ V, v.length = 3) →
      Tesselation2D.create_continuity_constrains nC sv si =
        Tesselation3D.create_continuity_constrains 2 6 nC sv si) := by
  constructor
  · intro ndim nC sv si hnd hlen hpair hV hvert hnodup
    have hpair' : ∀ q ∈ si, q.1 ≠ q.2 ∧ q.1 < nC ∧ q.2 < nC := by
      intro q hq
      obtain ⟨h1, h2⟩ := hpair q hq
      exact ⟨by omega, by omega, h2⟩
    constructor
    · exact create_continuity_ND_length ndim (ndim * (ndim + 1)) nC sv si
    · intro p hp v hv k hk
      exact create_continuity_ND_count ndim nC sv si hnd hlen hpair'
        (fun V hVm => (hV V hVm).1) (fun V hVm w hw => (hvert V hVm w hw).1)
        (fun V hVm => (hV V hVm).2) hnodup
        (fun V hVm w hw => (hvert V hVm w hw).2) p hp v hv k hk
  · intro nC sv si hlen hpair hdim hvert
    apply create_continuity_2D_eq_ND nC sv si hlen
    · intro q hq
      obtain ⟨h1, h2⟩ := hpair q hq
      exact ⟨by omega, by omega, h2⟩
    · exact hdim
    · exact hvert

/-- Witness for C1 at a concrete instance: `ndim = 2`, two simplices, one
recorded pair `(0, 1)` sharing the vertices `(1, 2)` and `(3, 4)` in
homogeneous form. -/
theorem claim_C1_witness :
    (Tesselation3D.create_continuity_constrains 2 6 2
        [[[1, 2, 1], [3, 4, 1]]] [(0, 1)]).rows.length = 2 * 2 * 1 ∧
    (Tesselation3D.create_continuity_constrains 2 6 2
        [[[1, 2, 1], [3, 4, 1]]] [(0, 1)]).rows.count
      (contTarget 2 6 2 0 1 0 [1, 2, 1]) = 1 ∧
    Tesselation2D.create_continuity_constrains 2 [[[1, 2, 1], [3, 4, 1]]] [(0, 1)] =
      Tesselation3D.create_continuity_constrains 2 6 2
        [[[1, 2, 1], [3, 4, 1]]] [(0, 1)] := by
  obtain ⟨hND, h2D⟩ := claim_C1_continuity_rows
  obtain ⟨hlen, hcount⟩ := hND 2 2 [[[1, 2, 1], [3, 4, 1]]] [(0, 1)]
    (by decide) (by decide) (by decide) (by decide) (by decide) (by decide)
  refine ⟨hlen, ?_, h2D 2 [[[1, 2, 1], [3, 4, 1]]] [(0, 1)]
    (by decide) (by decide) (by decide) (by decide)⟩
  exact hcount 0 (by decide) [1, 2, 1] (by decide) 0 (by decide)

/-- C2: `find_shared_verts` records `(i, j)` iff the set intersection of the
two simplices' vertex tuples has exactly `ndim` elements (with `i < j`, both
in range); every recorded pair satisfies `i < j`, the recorded list has no
duplicates and never contains both orders of a pair (so no unordered pair
appears twice), and no simplex is paired with itself.  A valid configuration
gives every simplex `ndim + 1` distinct vertices, which is the hypothesis. -/
theorem claim_C2_find_shared_verts (ndim nC : ℕ) (verts : List (List (List ℚ)))
    (hdist : ∀ i, i < nC → (verts.getD i []).dedup.length = ndim + 1) :
    (∀ i j, (i, j) ∈ (find_shared_verts ndim nC verts).2 ↔
      (i < j ∧ i < nC ∧ j < nC ∧
        (sharedVerts (verts.getD i []) (verts.getD j [])).length = ndim)) ∧
    (find_shared_verts ndim nC verts).2.Nodup ∧
    (∀ i j, (i, j) ∈ (find_shared_verts ndim nC verts).2 →
      (j, i) ∉ (find_shared_verts ndim nC verts).2) ∧
    (∀ p ∈ (find_shared_verts ndim nC verts).2, p.1 ≠ p.2) := by
  have hdiag : ∀ i, i < nC → (verts.getD i []).dedup.length ≠ ndim := by
    intro i hi
    rw [hdist i hi]
    omega
  have hmem := find_shared_verts_snd_mem ndim nC verts hdiag
  refine ⟨hmem, find_shared_verts_snd_nodup ndim nC verts hdiag, ?_, ?_⟩
  · intro i j hij hji
    have h1 := (hmem i j).1 hij
    have h2 := (hmem j i).1 hji
    omega
  · rintro ⟨i, j⟩ hp
    have h1 := (hmem i j).1 hp
    omega

section ConcreteEvaluation

attribute [local semireducible] Rat.add Rat.mul Rat.inv Rat.sub

/-- Witness for C2 on the 1D tesselation with two cells over `[0, 1]`. -/
theorem claim_C2_witness :
    (((0, 1) ∈ (find_shared_verts 1 2
        [[[0, 1], [1/2, 1]], [[1/2, 1], [1, 1]]]).2) ↔
      (0 < 1 ∧ 0 < 2 ∧ 1 < 2 ∧
        (sharedVerts ([[0, 1], [1/2, 1]] : List (List ℚ))
          [[1/2, 1], [1, 1]]).length = 1)) ∧
    (find_shared_verts 1 2 [[[0, 1], [1/2, 1]], [[1/2, 1], [1, 1]]]).2.Nodup ∧
    ((0, 1) ∈ (find_shared_verts 1 2
        [[[0, 1], [1/2, 1]], [[1/2, 1], [1, 1]]]).2 →
      (1, 0) ∉ (find_shared_verts 1 2 [[[0, 1], [1/2, 1]], [[1/2, 1], [1, 1]]]).2) := by
  obtain ⟨h1, h2, h3, _⟩ := claim_C2_find_shared_verts 1 2
    [[[0, 1], [1/2, 1]], [[1/2, 1], [1, 1]]] (by decide)
  exact ⟨h1 0 1, h2, h3 0 1⟩

/-- C3: the 1D scenario `nc = [5]`, domain `[0, 1]`, zero-boundary and
volume-preservation enabled: `nC = 5`, `n_params = 2`, and the final `L` is
the stack of the continuity block (4 rows), the zero-boundary block (2 rows)
and the trace block (5 rows), in that order, with `10 = n_params * nC`
columns and `11` rows in total. -/
theorem claim_C3_1d_scenario :
    (Tesselation1D.construct 5 0 1 true true).toOption.map Tess1D.L =
      some (vstackM (vstackM
        ((Tesselation1D.create_continuity_constrains 5
          (find_shared_verts 1 5 (Tesselation1D.find_verts 5 0 1)).1).toOption.getD
          (zerosM 0 0))
        (Tesselation1D.create_zero_boundary_constrains 5 0 1))
        (Tesselation.create_zero_trace_constrains 1 2 5)) ∧
    ((Tesselation1D.create_continuity_constrains 5
        (find_shared_verts 1 5 (Tesselation1D.find_verts 5 0 1)).1).toOption.getD
        (zerosM 0 0)).rows.length = 4 ∧
    (Tesselation1D.create_zero_boundary_constrains 5 0 1).rows.length = 2 ∧
    (Tesselation.create_zero_trace_constrains 1 2 5).rows.length = 5 ∧
    (Tesselation1D.construct 5 0 1 true true).toOption.map (fun r => r.L.ncols) =
      some (2 * 5) ∧
    (Tesselation1D.construct 5 0 1 true true).toOption.map (fun r => r.L.rows.length) =
      some 11 := by
  decide

/-!
Column counts of the assembled constraint matrix (claim C4).  Every block
builder allocates `np.zeros((rows, n_params * nC))`-shaped storage, and the
final `L` stacks blocks of that common width.
-/

theorem except_bind_ok {ε α β : Type} (a : α) (f : α → Except ε β) :
    (Except.ok a : Except ε α) >>= f = f a := rfl

theorem except_bind_error {ε α β : Type} (e : ε) (f : α → Except ε β) :
    (Except.error e : Except ε α) >>= f = Except.error e := rfl

theorem except_bind_eq_ok {ε α β : Type} {e : Except ε α} {f : α → Except ε β}
    {b : β} (h : e >>= f = Except.ok b) :
    ∃ a, e = Except.ok a ∧ f a = Except.ok b := by
  cases e with
  | error e' =>
    rw [except_bind_error] at h
    exact absurd h (by simp)
  | ok a =>
    rw [except_bind_ok] at h
    exact ⟨a, rfl, h⟩

theorem foldl_ncols {α : Type} (l : List α) (g : QMat → α → QMat)
    (hg : ∀ M a, (g M a).ncols = M.ncols) (M0 : QMat) :
    (l.foldl g M0).ncols = M0.ncols := by
  induction l generalizing M0 with
  | nil => rfl
  | cons a t ih => rw [List.foldl_cons, ih, hg]

theorem Tesselation1D.create_continuity_ncols (nC : ℕ)
    (sv : List (List (List ℚ))) (M : QMat)
    (h : Tesselation1D.create_continuity_constrains nC sv = Except.ok M) :
    M.ncols = 2 * nC := by
  unfold Tesselation1D.create_continuity_constrains at h
  by_cases h0 : nC = 0
  · rw [if_pos h0] at h
    exact absurd h (by simp)
  · rw [if_neg h0] at h
    by_cases h1 : sv.length ≤ nC - 1
    · rw [if_pos h1] at h
      injection h with h
      rw [← h]
      exact foldl_ncols sv.enum
        (fun M x => setRow M x.1 (2 * x.1)
          ((x.2.getD 0 []) ++ (x.2.getD 0 []).map Neg.neg))
        (fun M x => rfl) (zerosM (nC - 1) (2 * nC))
    · rw [if_neg h1] at h
      exact absurd h (by simp)

theorem Tess1D_L_ncols (n : ℕ) (dmin dmax : ℚ) (zb vp : Bool) (t : Tess1D)
    (h : Tesselation1D.construct n dmin dmax zb vp = Except.ok t) :
    t.L.ncols = 2 * n := by
  unfold Tesselation1D.construct at h
  dsimp only at h
  obtain ⟨L0, hL0, hok⟩ := except_bind_eq_ok h
  have hok' := Except.ok.inj hok
  rw [← hok']
  have hn := Tesselation1D.create_continuity_ncols n _ L0 hL0
  cases zb <;> cases vp <;> simp [vstackM, hn]

theorem Tess2D_L_ncols (nc0 nc1 : ℕ) (d0 d1 D0 D1 : ℚ) (zb vp : Bool) (t : Tess2D)
    (h : Tesselation2D.construct nc0 nc1 d0 d1 D0 D1 zb vp = Except.ok t) :
    t.L.ncols = 6 * (4 * (nc0 * nc1)) := by
  unfold Tesselation2D.construct at h
  dsimp only at h
  obtain ⟨sh, hsh, hok⟩ := except_bind_eq_ok h
  have hok' := Except.ok.inj hok
  rw [← hok']
  cases zb <;> cases vp <;>
    simp [vstackM, Tesselation2D.create_continuity_constrains]

/-- C4: wherever the pipeline assembles a final `L`, it has
`n_params * nC` columns: in 1D `2 * nc[0]` for every outcome flag
combination, in 2D `6 * (4 * nc[0] * nc[1])` likewise; in 3D
(`n_params = 12`, `nC = 6 * nc[0] * nc[1] * nc[2]`) the pipeline never reaches
the stacking step (its zero-boundary and auxiliary-vertex stages always raise,
see the C9/C10 developments), so the width claim is settled for the blocks
that `L` would stack: the continuity block and the trace block each carry
`12 * nC` columns. -/
theorem claim_C4_L_columns :
    (∀ n : ℕ, ∀ dmin dmax : ℚ, ∀ zb vp : Bool, ∀ t : Tess1D,
      Tesselation1D.construct n dmin dmax zb vp = Except.ok t →
      t.L.ncols = 2 * n) ∧
    (∀ nc0 nc1 : ℕ, ∀ d0 d1 D0 D1 : ℚ, ∀ zb vp : Bool, ∀ t : Tess2D,
      Tesselation2D.construct nc0 nc1 d0 d1 D0 D1 zb vp = Except.ok t →
      t.L.ncols = 6 * (4 * (nc0 * nc1))) ∧
    (∀ nC : ℕ, ∀ sv : List (List (List ℚ)), ∀ si : List (ℕ × ℕ),
      (Tesselation3D.create_continuity_constrains 3 12 nC sv si).ncols = 12 * nC) ∧
    (∀ nC : ℕ, (Tesselation.create_zero_trace_constrains 3 12 nC).ncols = 12 * nC) :=
  ⟨Tess1D_L_ncols, Tess2D_L_ncols, fun _ _ _ => rfl, fun _ => rfl⟩

/-- Witness for C4: the 1D scenario `[5]` over `[0,1]` and the 2D scenario
`[1,1]` over `[0,1]²` (both with zero boundary) construct successfully, and
their matrices have `2 * 5` and `6 * 4` columns. -/
theorem claim_C4_witness :
    (Tesselation1D.construct 5 0 1 true true).map (fun t => t.L.ncols) =
      Except.ok (2 * 5) ∧
    (Tesselation2D.construct 1 1 0 0 1 1 true true).map (fun t => t.L.ncols) =
      Except.ok (6 * (4 * (1 * 1))) := by
  constructor
  · cases hc : Tesselation1D.construct 5 0 1 true true with
    | error e =>
      have hsome : (Tesselation1D.construct 5 0 1 true true).toOption.isSome = true := by
        decide
      rw [hc] at hsome
      exact absurd hsome (by simp [Except.toOption])
    | ok t =>
      have := claim_C4_L_columns.1 5 0 1 true true t hc
      simp [Except.map, this]
  · cases hc : Tesselation2D.construct 1 1 0 0 1 1 true true with
    | error e =>
      have hsome : (Tesselation2D.construct 1 1 0 0 1 1 true true).toOption.isSome = true := by
        decide
      rw [hc] at hsome
      exact absurd hsome (by simp [Except.toOption])
    | ok t =>
      have := claim_C4_L_columns.2.1 1 1 0 0 1 1 true true t hc
      simp [Except.map, this]

/-!
The 2D virtual boundary scan (claim C5): symmetry and irreflexivity of the
recording condition, and the recorded payloads.
-/

theorem left_flag_symm (cells : List (ℕ × ℕ × ℕ)) (i j : ℕ) :
    Tesselation2D.left_flag cells i j = Tesselation2D.left_flag cells j i := by
  unfold Tesselation2D.left_flag
  simp only [decide_eq_decide]
  constructor <;> rintro ⟨h1, h2, h3, h4, h5⟩ <;> exact ⟨h2, h1, h4, h3, by omega⟩

theorem right_flag_symm (nc0 : ℕ) (cells : List (ℕ × ℕ × ℕ)) (i j : ℕ) :
    Tesselation2D.right_flag nc0 cells i j = Tesselation2D.right_flag nc0 cells j i := by
  unfold Tesselation2D.right_flag
  simp only [decide_eq_decide]
  constructor <;> rintro ⟨h1, h2, h3, h4, h5⟩ <;> exact ⟨h2, h1, h4, h3, by omega⟩

theorem top_flag_symm (cells : List (ℕ × ℕ × ℕ)) (i j : ℕ) :
    Tesselation2D.top_flag cells i j = Tesselation2D.top_flag cells j i := by
  unfold Tesselation2D.top_flag
  simp only [decide_eq_decide]
  constructor <;> rintro ⟨h1, h2, h3, h4, h5⟩ <;> exact ⟨h2, h1, h4, h3, by omega⟩

theorem bottom_flag_symm (nc1 : ℕ) (cells : List (ℕ × ℕ × ℕ)) (i j : ℕ) :
    Tesselation2D.bottom_flag nc1 cells i j = Tesselation2D.bottom_flag nc1 cells j i := by
  unfold Tesselation2D.bottom_flag
  simp only [decide_eq_decide]
  constructor <;> rintro ⟨h1, h2, h3, h4, h5⟩ <;> exact ⟨h2, h1, h4, h3, by omega⟩

theorem left_flag_diag (cells : List (ℕ × ℕ × ℕ)) (i : ℕ) :
    Tesselation2D.left_flag cells i i = false := by
  unfold Tesselation2D.left_flag
  simp only [decide_eq_false_iff_not]
  rintro ⟨-, -, -, -, h⟩
  omega

theorem right_flag_diag (nc0 : ℕ) (cells : List (ℕ × ℕ × ℕ)) (i : ℕ) :
    Tesselation2D.right_flag nc0 cells i i = false := by
  unfold Tesselation2D.right_flag
  simp only [decide_eq_false_iff_not]
  rintro ⟨-, -, -, -, h⟩
  omega

theorem top_flag_diag (cells : List (ℕ × ℕ × ℕ)) (i : ℕ) :
    Tesselation2D.top_flag cells i i = false := by
  unfold Tesselation2D.top_flag
  simp only [decide_eq_false_iff_not]
  rintro ⟨-, -, -, -, h⟩
  omega

theorem bottom_flag_diag (nc1 : ℕ) (cells : List (ℕ × ℕ × ℕ)) (i : ℕ) :
    Tesselation2D.bottom_flag nc1 cells i i = false := by
  unfold Tesselation2D.bottom_flag
  simp only [decide_eq_false_iff_not]
  rintro ⟨-, -, -, -, h⟩
  omega

theorem outside_cond_symm (nc0 nc1 : ℕ) (verts : List (List (List ℚ)))
    (cells : List (ℕ × ℕ × ℕ)) (i j : ℕ) :
    Tesselation2D.outside_cond nc0 nc1 verts cells i j =
      Tesselation2D.outside_cond nc0 nc1 verts cells j i := by
  unfold Tesselation2D.outside_cond
  rw [sharedVerts_length_comm, left_flag_symm, right_flag_symm, top_flag_symm,
    bottom_flag_symm]

theorem outside_cond_diag (nc0 nc1 : ℕ) (verts : List (List (List ℚ)))
    (cells : List (ℕ × ℕ × ℕ)) (i : ℕ) :
    Tesselation2D.outside_cond nc0 nc1 verts cells i i = false := by
  unfold Tesselation2D.outside_cond
  rw [left_flag_diag, right_flag_diag, top_flag_diag, bottom_flag_diag]
  simp

theorem flags_tb_not_lr (nc0 nc1 : ℕ) (cells : List (ℕ × ℕ × ℕ)) (i j : ℕ)
    (h : Tesselation2D.top_flag cells i j = true ∨
      Tesselation2D.bottom_flag nc1 cells i j = true) :
    (Tesselation2D.left_flag cells i j || Tesselation2D.right_flag nc0 cells i j) =
      false := by
  have ht : (cells.getD i (0, 0, 0)).2.2 = 0 ∨ (cells.getD i (0, 0, 0)).2.2 = 2 := by
    rcases h with h | h
    · simp only [Tesselation2D.top_flag, decide_eq_true_eq] at h
      exact Or.inl h.2.2.1
    · simp only [Tesselation2D.bottom_flag, decide_eq_true_eq] at h
      exact Or.inr h.2.2.1
  rw [Bool.or_eq_false_iff]
  constructor
  · simp only [Tesselation2D.left_flag, decide_eq_false_iff_not]
    rintro ⟨-, -, h3, -, -⟩
    omega
  · simp only [Tesselation2D.right_flag, decide_eq_false_iff_not]
    rintro ⟨-, -, h3, -, -⟩
    omega

theorem outside_payload_lr (nc0 nc1 : ℕ) (verts : List (List (List ℚ)))
    (cells : List (ℕ × ℕ × ℕ)) (i j : ℕ)
    (h : Tesselation2D.left_flag cells i j = true ∨
      Tesselation2D.right_flag nc0 cells i j = true) :
    Tesselation2D.outside_payload nc0 nc1 verts cells i j =
      [(sharedVerts (verts.getD i []) (verts.getD j [])).getD 0 [],
       ((sharedVerts (verts.getD i []) (verts.getD j [])).getD 0 []).set 0
         (((sharedVerts (verts.getD i []) (verts.getD j [])).getD 0 []).getD 0 0 - 10)] := by
  unfold Tesselation2D.outside_payload
  rw [if_pos (by rcases h with h | h <;> simp [h])]

theorem outside_payload_tb (nc0 nc1 : ℕ) (verts : List (List (List ℚ)))
    (cells : List (ℕ × ℕ × ℕ)) (i j : ℕ)
    (h : Tesselation2D.top_flag cells i j = true ∨
      Tesselation2D.bottom_flag nc1 cells i j = true) :
    Tesselation2D.outside_payload nc0 nc1 verts cells i j =
      [(sharedVerts (verts.getD i []) (verts.getD j [])).getD 0 [],
       ((sharedVerts (verts.getD i []) (verts.getD j [])).getD 0 []).set 1
         (((sharedVerts (verts.getD i []) (verts.getD j [])).getD 0 []).getD 1 0 - 10)] := by
  unfold Tesselation2D.outside_payload
  rw [if_neg (by rw [flags_tb_not_lr nc0 nc1 cells i j h]; exact Bool.false_ne_true),
    if_pos (by rcases h with h | h <;> simp [h])]

set_option maxRecDepth 100000

/-- C5: in 2D the virtual boundary scan records `(i, j)` exactly when `i < j`,
both indices are in range, the two triangles share exactly one vertex and one
of the four external-edge tests holds (leftmost column with sub-triangle 3,
rightmost column with sub-triangle 1, top row with sub-triangle 0, bottom row
with sub-triangle 2, the cell row/column indices differing by exactly 1); the
recorded list has no duplicates, and each recorded pair carries the payload
`{shared vertex, ghost vertex}`, the ghost obtained by shifting the shared
vertex by the fixed offset `-10` along the axis perpendicular to the edge
(`x` for left/right, `y` for top/bottom).  On the cell grid `[2, 2]` over
`[0,1]²` exactly one pair per outer edge is recorded: `(0,4)` on the top
edge, `(3,11)` on the left, `(5,13)` on the right, `(10,14)` on the bottom. -/
theorem claim_C5_virtual_pairs :
    (∀ nC nc0 nc1 : ℕ, ∀ verts : List (List (List ℚ)), ∀ cells : List (ℕ × ℕ × ℕ),
      (∀ i j : ℕ,
        (i, j) ∈ (Tesselation2D.find_verts_outside nC nc0 nc1 verts cells).2 ↔
          (i < j ∧ i < nC ∧ j < nC ∧
            (sharedVerts (verts.getD i []) (verts.getD j [])).length = 1 ∧
            (Tesselation2D.left_flag cells i j = true ∨
             Tesselation2D.right_flag nc0 cells i j = true ∨
             Tesselation2D.top_flag cells i j = true ∨
             Tesselation2D.bottom_flag nc1 cells i j = true))) ∧
      (Tesselation2D.find_verts_outside nC nc0 nc1 verts cells).2.Nodup ∧
      (Tesselation2D.find_verts_outside nC nc0 nc1 verts cells).1 =
        (Tesselation2D.find_verts_outside nC nc0 nc1 verts cells).2.map
          (fun p => Tesselation2D.outside_payload nc0 nc1 verts cells p.1 p.2)) ∧
    (∀ nc0 nc1 : ℕ, ∀ verts : List (List (List ℚ)), ∀ cells : List (ℕ × ℕ × ℕ),
      ∀ i j : ℕ,
      (Tesselation2D.left_flag cells i j = true ∨
        Tesselation2D.right_flag nc0 cells i j = true) →
      Tesselation2D.outside_payload nc0 nc1 verts cells i j =
        [(sharedVerts (verts.getD i []) (verts.getD j [])).getD 0 [],
         ((sharedVerts (verts.getD i []) (verts.getD j [])).getD 0 []).set 0
           (((sharedVerts (verts.getD i []) (verts.getD j [])).getD 0 []).getD 0 0 - 10)]) ∧
    (∀ nc0 nc1 : ℕ, ∀ verts : List (List (List ℚ)), ∀ cells : List (ℕ × ℕ × ℕ),
      ∀ i j : ℕ,
      (Tesselation2D.top_flag cells i j = true ∨
        Tesselation2D.bottom_flag nc1 cells i j = true) →
      Tesselation2D.outside_payload nc0 nc1 verts cells i j =
        [(sharedVerts (verts.getD i []) (verts.getD j [])).getD 0 [],
         ((sharedVerts (verts.getD i []) (verts.getD j [])).getD 0 []).set 1
           (((sharedVerts (verts.getD i []) (verts.getD j [])).getD 0 []).getD 1 0 - 10)]) ∧
    ((Tesselation2D.find_verts_outside 16 2 2
        (Tesselation2D.find_verts 2 2 0 0 1 1).1
        (Tesselation2D.find_verts 2 2 0 0 1 1).2).2 =
      [(0, 4), (3, 11), (5, 13), (10, 14)] ∧
     Tesselation2D.top_flag (Tesselation2D.find_verts 2 2 0 0 1 1).2 0 4 = true ∧
     Tesselation2D.left_flag (Tesselation2D.find_verts 2 2 0 0 1 1).2 3 11 = true ∧
     Tesselation2D.right_flag 2 (Tesselation2D.find_verts 2 2 0 0 1 1).2 5 13 = true ∧
     Tesselation2D.bottom_flag 2 (Tesselation2D.find_verts 2 2 0 0 1 1).2 10 14 = true) := by
  refine ⟨fun nC nc0 nc1 verts cells => ⟨fun i j => ?_, ?_, ?_⟩,
    outside_payload_lr, outside_payload_tb, by decide⟩
  · rw [Tesselation2D.find_verts_outside,
      pairScan_snd_mem nC _ _ (outside_cond_symm nc0 nc1 verts cells)
        (fun k _ => outside_cond_diag nc0 nc1 verts cells k)]
    unfold Tesselation2D.outside_cond
    simp only [Bool.and_eq_true, Bool.or_eq_true, decide_eq_true_eq]
    tauto
  · rw [Tesselation2D.find_verts_outside]
    exact pairScan_snd_nodup nC _ _ (outside_cond_symm nc0 nc1 verts cells)
      (fun k _ => outside_cond_diag nc0 nc1 verts cells k)
  · rw [Tesselation2D.find_verts_outside]
    exact pairScan_fst_eq_map nC _ _ (outside_cond_symm nc0 nc1 verts cells)
      (fun k _ => outside_cond_diag nc0 nc1 verts cells k)

/-- Witness for C5: instantiation on the `[2, 2]` grid over `[0,1]²`: the top
pair `(0, 4)` satisfies the recording characterization, and the left pair
`(3, 11)` carries the payload `{shared vertex, x-shifted ghost}`. -/
theorem claim_C5_witness :
    ((0, 4) ∈ (Tesselation2D.find_verts_outside 16 2 2
        (Tesselation2D.find_verts 2 2 0 0 1 1).1
        (Tesselation2D.find_verts 2 2 0 0 1 1).2).2 ↔
      (0 < 4 ∧ 0 < 16 ∧ 4 < 16 ∧
        (sharedVerts ((Tesselation2D.find_verts 2 2 0 0 1 1).1.getD 0 [])
          ((Tesselation2D.find_verts 2 2 0 0 1 1).1.getD 4 [])).length = 1 ∧
        (Tesselation2D.left_flag (Tesselation2D.find_verts 2 2 0 0 1 1).2 0 4 = true ∨
         Tesselation2D.right_flag 2 (Tesselation2D.find_verts 2 2 0 0 1 1).2 0 4 = true ∨
         Tesselation2D.top_flag (Tesselation2D.find_verts 2 2 0 0 1 1).2 0 4 = true ∨
         Tesselation2D.bottom_flag 2 (Tesselation2D.find_verts 2 2 0 0 1 1).2 0 4 = true))) ∧
    Tesselation2D.outside_payload 2 2 (Tesselation2D.find_verts 2 2 0 0 1 1).1
        (Tesselation2D.find_verts 2 2 0 0 1 1).2 3 11 =
      [(sharedVerts ((Tesselation2D.find_verts 2 2 0 0 1 1).1.getD 3 [])
          ((Tesselation2D.find_verts 2 2 0 0 1 1).1.getD 11 [])).getD 0 [],
       ((sharedVerts ((Tesselation2D.find_verts 2 2 0 0 1 1).1.getD 3 [])
          ((Tesselation2D.find_verts 2 2 0 0 1 1).1.getD 11 [])).getD 0 []).set 0
         (((sharedVerts ((Tesselation2D.find_verts 2 2 0 0 1 1).1.getD 3 [])
          ((Tesselation2D.find_verts 2 2 0 0 1 1).1.getD 11 [])).getD 0 []).getD 0 0 - 10)] :=
  ⟨(claim_C5_virtual_pairs.1 16 2 2 (Tesselation2D.find_verts 2 2 0 0 1 1).1
      (Tesselation2D.find_verts 2 2 0 0 1 1).2).1 0 4,
   claim_C5_virtual_pairs.2.1 2 2 (Tesselation2D.find_verts 2 2 0 0 1 1).1
      (Tesselation2D.find_verts 2 2 0 0 1 1).2 3 11 (Or.inl (by decide))⟩

/-!
2D zero-boundary rows (claim C6).  `zbRow nC c a v` is the row shape the claim
speaks about: the vertex `v` written into simplex `c`'s output-dimension-`a`
parameter block, columns `[6c + 3a, 6c + 3a + |v|)`, all other entries zero.
The source emits, for an `x`-touching vertex, the row `zbRow nC c 1 v`
(`Ltemp[6*c : 6*c+6] = [0, 0, 0, *v]`) and, for a `y`-touching vertex,
`zbRow nC c 0 v` (`[*v, 0, 0, 0]`) — the block of the other axis.
-/

def zbRow (nC c a : ℕ) (v : List ℚ) : List ℚ :=
  setSlice (List.replicate (6 * nC) 0) (6 * c + 3 * a) v

theorem zbRow_length (nC c a : ℕ) (v : List ℚ)
    (h : 6 * c + 3 * a + v.length ≤ 6 * nC) :
    (zbRow nC c a v).length = 6 * nC := by
  unfold zbRow
  rw [setSlice_length _ _ _ (by rw [List.length_replicate]; omega),
    List.length_replicate]

theorem zbRow_getD (nC c a : ℕ) (v : List ℚ) (col : ℕ)
    (h : 6 * c + 3 * a + v.length ≤ 6 * nC) :
    (zbRow nC c a v).getD col 0 =
      if 6 * c + 3 * a ≤ col ∧ col < 6 * c + 3 * a + v.length
      then v.getD (col - (6 * c + 3 * a)) 0 else 0 := by
  unfold zbRow
  rw [setSlice_getD _ _ _ _ (by rw [List.length_replicate]; omega)]
  by_cases hin : 6 * c + 3 * a ≤ col ∧ col < 6 * c + 3 * a + v.length
  · rw [if_pos hin, if_pos hin]
  · rw [if_neg hin, if_neg hin, replicate_getD]

theorem xrow_eq_zbRow (nC c : ℕ) (v : List ℚ) (hlen : v.length = 3) (hc : c < nC) :
    setSlice (List.replicate (6 * nC) 0) (6 * c) ([0, 0, 0] ++ v) = zbRow nC c 1 v := by
  have hl6 : ([0, 0, 0] ++ v).length = 6 := by
    rw [List.length_append, hlen]
    rfl
  have hin : 6 * c + ([0, 0, 0] ++ v).length ≤ (List.replicate (6 * nC) (0 : ℚ)).length := by
    rw [hl6, List.length_replicate]
    omega
  apply eq_of_getD
  · rw [setSlice_length _ _ _ hin, zbRow_length nC c 1 v (by rw [hlen]; omega),
      List.length_replicate]
  · intro col
    rw [setSlice_getD _ _ _ _ hin, zbRow_getD nC c 1 v col (by rw [hlen]; omega), hl6,
      hlen]
    rcases Nat.lt_or_ge col (6 * c) with h1 | h1
    · have c1 : ¬ (6 * c ≤ col ∧ col < 6 * c + 6) := by omega
      have c2 : ¬ (6 * c + 3 * 1 ≤ col ∧ col < 6 * c + 3 * 1 + 3) := by omega
      rw [if_neg c1, if_neg c2, replicate_getD]
    · rcases Nat.lt_or_ge col (6 * c + 3) with h2 | h2
      · have c1 : 6 * c ≤ col ∧ col < 6 * c + 6 := by omega
        have c2 : ¬ (6 * c + 3 * 1 ≤ col ∧ col < 6 * c + 3 * 1 + 3) := by omega
        rw [if_pos c1, if_neg c2, zeros_append_getD, if_pos (by omega)]
      · rcases Nat.lt_or_ge col (6 * c + 6) with h3 | h3
        · have c1 : 6 * c ≤ col ∧ col < 6 * c + 6 := by omega
          have c2 : 6 * c + 3 * 1 ≤ col ∧ col < 6 * c + 3 * 1 + 3 := by omega
          rw [if_pos c1, if_pos c2, zeros_append_getD, if_neg (by omega)]
          congr 1
        · have c1 : ¬ (6 * c ≤ col ∧ col < 6 * c + 6) := by omega
          have c2 : ¬ (6 * c + 3 * 1 ≤ col ∧ col < 6 * c + 3 * 1 + 3) := by omega
          rw [if_neg c1, if_neg c2, replicate_getD]

theorem yrow_eq_zbRow (nC c : ℕ) (v : List ℚ) (hlen : v.length = 3) (hc : c < nC) :
    setSlice (List.replicate (6 * nC) 0) (6 * c) (v ++ [0, 0, 0]) = zbRow nC c 0 v := by
  have hl6 : (v ++ [0, 0, 0]).length = 6 := by
    rw [List.length_append, hlen]
    rfl
  have hin : 6 * c + (v ++ [0, 0, 0]).length ≤ (List.replicate (6 * nC) (0 : ℚ)).length := by
    rw [hl6, List.length_replicate]
    omega
  apply eq_of_getD
  · rw [setSlice_length _ _ _ hin, zbRow_length nC c 0 v (by rw [hlen]; omega),
      List.length_replicate]
  · intro col
    rw [setSlice_getD _ _ _ _ hin, zbRow_getD nC c 0 v col (by rw [hlen]; omega), hl6,
      hlen]
    rcases Nat.lt_or_ge col (6 * c) with h1 | h1
    · have c1 : ¬ (6 * c ≤ col ∧ col < 6 * c + 6) := by omega
      have c2 : ¬ (6 * c + 3 * 0 ≤ col ∧ col < 6 * c + 3 * 0 + 3) := by omega
      rw [if_neg c1, if_neg c2, replicate_getD]
    · rcases Nat.lt_or_ge col (6 * c + 3) with h2 | h2
      · have c1 : 6 * c ≤ col ∧ col < 6 * c + 6 := by omega
        have c2 : 6 * c + 3 * 0 ≤ col ∧ col < 6 * c + 3 * 0 + 3 := by omega
        rw [if_pos c1, if_pos c2, append_zeros_getD v hlen, if_pos (by omega)]
        congr 1
      · rcases Nat.lt_or_ge col (6 * c + 6) with h3 | h3
        · have c1 : 6 * c ≤ col ∧ col < 6 * c + 6 := by omega
          have c2 : ¬ (6 * c + 3 * 0 ≤ col ∧ col < 6 * c + 3 * 0 + 3) := by omega
          rw [if_pos c1, if_neg c2, append_zeros_getD v hlen, if_neg (by omega)]
        · have c1 : ¬ (6 * c ≤ col ∧ col < 6 * c + 6) := by omega
          have c2 : ¬ (6 * c + 3 * 0 ≤ col ∧ col < 6 * c + 3 * 0 + 3) := by omega
          rw [if_neg c1, if_neg c2, replicate_getD]

theorem zbRow_inj (nC c a : ℕ) {v v' : List ℚ} (hv : v.length = 3) (hv' : v'.length = 3)
    (hc : 6 * c + 3 * a + 3 ≤ 6 * nC) (h : zbRow nC c a v = zbRow nC c a v') :
    v = v' := by
  apply eq_of_getD (by rw [hv, hv'])
  intro x
  rcases Nat.lt_or_ge x 3 with hx | hx
  · have hcol := congrArg (fun l => l.getD (6 * c + 3 * a + x) 0) h
    simp only at hcol
    rw [zbRow_getD nC c a v _ (by omega), zbRow_getD nC c a v' _ (by omega)] at hcol
    have cc : 6 * c + 3 * a ≤ 6 * c + 3 * a + x ∧
        6 * c + 3 * a + x < 6 * c + 3 * a + v.length := by omega
    have cc' : 6 * c + 3 * a ≤ 6 * c + 3 * a + x ∧
        6 * c + 3 * a + x < 6 * c + 3 * a + v'.length := by omega
    rw [if_pos cc, if_pos cc'] at hcol
    have harith : 6 * c + 3 * a + x - (6 * c + 3 * a) = x := by omega
    rwa [harith] at hcol
  · rw [List.getD_eq_default _ _ (by omega), List.getD_eq_default _ _ (by omega)]

theorem zbRow_ne_of_pos (nC c a c' a' : ℕ) (v v' : List ℚ)
    (hv'2 : v'.getD 2 0 = 1) (hlen' : v'.length = 3)
    (hin : 6 * c + 3 * a + v.length ≤ 6 * nC) (hin' : 6 * c' + 3 * a' + 3 ≤ 6 * nC)
    (hpos : ¬ (6 * c + 3 * a ≤ 6 * c' + 3 * a' + 2 ∧
      6 * c' + 3 * a' + 2 < 6 * c + 3 * a + v.length)) :
    zbRow nC c' a' v' ≠ zbRow nC c a v := by
  intro h
  have hcol := congrArg (fun l => l.getD (6 * c' + 3 * a' + 2) 0) h
  simp only at hcol
  rw [zbRow_getD nC c' a' v' _ (by omega), zbRow_getD nC c a v _ hin] at hcol
  have cc' : 6 * c' + 3 * a' ≤ 6 * c' + 3 * a' + 2 ∧
      6 * c' + 3 * a' + 2 < 6 * c' + 3 * a' + v'.length := by omega
  rw [if_pos cc', if_neg hpos] at hcol
  have harith : 6 * c' + 3 * a' + 2 - (6 * c' + 3 * a') = 2 := by omega
  rw [harith, hv'2] at hcol
  exact one_ne_zero hcol

theorem zb2D_count_x (nC : ℕ) (d0 d1 D0 D1 : ℚ) (verts : List (List (List ℚ)))
    (hv : ∀ c, c < nC → ∀ v ∈ verts.getD c [], v.length = 3 ∧ v.getD 2 0 = 1)
    (hnd : ∀ c, c < nC → (verts.getD c []).Nodup)
    (c : ℕ) (hc : c < nC) (v : List ℚ) (hvc : v ∈ verts.getD c [])
    (hx : v.getD 0 0 = d0 ∨ v.getD 0 0 = D0) :
    (Tesselation2D.create_zero_boundary_constrains nC d0 d1 D0 D1 verts).rows.count
      (zbRow nC c 1 v) = 1 := by
  obtain ⟨hvl, hv2⟩ := hv c hc v hvc
  apply count_flatMap_eq_one (List.range nC) _ _ c (List.mem_range.2 hc)
    (List.nodup_range _)
  · apply count_flatMap_eq_one _ _ _ v hvc (hnd c hc)
    · rw [List.count_append, if_pos hx, xrow_eq_zbRow nC c v hvl hc]
      have hB : ((if v.getD 1 0 = d1 ∨ v.getD 1 0 = D1
          then [setSlice (List.replicate (6 * nC) 0) (6 * c) (v ++ [0, 0, 0])]
          else []) : List (List ℚ)).count (zbRow nC c 1 v) = 0 := by
        by_cases hy : v.getD 1 0 = d1 ∨ v.getD 1 0 = D1
        · rw [if_pos hy, yrow_eq_zbRow nC c v hvl hc]
          have hne : zbRow nC c 0 v ≠ zbRow nC c 1 v :=
            zbRow_ne_of_pos nC c 1 c 0 v v hv2 hvl (by rw [hvl]; omega) (by omega)
              (by rw [hvl]; omega)
          simp [List.count_cons, hne]
        · rw [if_neg hy]
          rfl
      rw [hB]
      simp
    · intro w hw hwv
      obtain ⟨hwl, hw2⟩ := hv c hc w hw
      rw [List.count_append]
      have hA : ((if w.getD 0 0 = d0 ∨ w.getD 0 0 = D0
          then [setSlice (List.replicate (6 * nC) 0) (6 * c) ([0, 0, 0] ++ w)]
          else []) : List (List ℚ)).count (zbRow nC c 1 v) = 0 := by
        by_cases hx' : w.getD 0 0 = d0 ∨ w.getD 0 0 = D0
        · rw [if_pos hx', xrow_eq_zbRow nC c w hwl hc]
          have hne : zbRow nC c 1 w ≠ zbRow nC c 1 v :=
            fun h => hwv (zbRow_inj nC c 1 hwl hvl (by omega) h)
          simp [List.count_cons, hne]
        · rw [if_neg hx']
          rfl
      have hB : ((if w.getD 1 0 = d1 ∨ w.getD 1 0 = D1
          then [setSlice (List.replicate (6 * nC) 0) (6 * c) (w ++ [0, 0, 0])]
          else []) : List (List ℚ)).count (zbRow nC c 1 v) = 0 := by
        by_cases hy' : w.getD 1 0 = d1 ∨ w.getD 1 0 = D1
        · rw [if_pos hy', yrow_eq_zbRow nC c w hwl hc]
          have hne : zbRow nC c 0 w ≠ zbRow nC c 1 v :=
            zbRow_ne_of_pos nC c 1 c 0 v w hw2 hwl (by rw [hvl]; omega) (by omega)
              (by rw [hvl]; omega)
          simp [List.count_cons, hne]
        · rw [if_neg hy']
          rfl
      rw [hA, hB]
  · intro c' hc'mem hc'ne
    have hc' := List.mem_range.1 hc'mem
    apply count_flatMap_eq_zero
    intro w hw
    obtain ⟨hwl, hw2⟩ := hv c' hc' w hw
    rw [List.count_append]
    have hA : ((if w.getD 0 0 = d0 ∨ w.getD 0 0 = D0
        then [setSlice (List.replicate (6 * nC) 0) (6 * c') ([0, 0, 0] ++ w)]
        else []) : List (List ℚ)).count (zbRow nC c 1 v) = 0 := by
      by_cases hx' : w.getD 0 0 = d0 ∨ w.getD 0 0 = D0
      · rw [if_pos hx', xrow_eq_zbRow nC c' w hwl hc']
        have hne : zbRow nC c' 1 w ≠ zbRow nC c 1 v :=
          zbRow_ne_of_pos nC c 1 c' 1 v w hw2 hwl (by rw [hvl]; omega) (by omega)
            (by rw [hvl]; omega)
        simp [List.count_cons, hne]
      · rw [if_neg hx']
        rfl
    have hB : ((if w.getD 1 0 = d1 ∨ w.getD 1 0 = D1
        then [setSlice (List.replicate (6 * nC) 0) (6 * c') (w ++ [0, 0, 0])]
        else []) : List (List ℚ)).count (zbRow nC c 1 v) = 0 := by
      by_cases hy' : w.getD 1 0 = d1 ∨ w.getD 1 0 = D1
      · rw [if_pos hy', yrow_eq_zbRow nC c' w hwl hc']
        have hne : zbRow nC c' 0 w ≠ zbRow nC c 1 v :=
          zbRow_ne_of_pos nC c 1 c' 0 v w hw2 hwl (by rw [hvl]; omega) (by omega)
            (by rw [hvl]; omega)
        simp [List.count_cons, hne]
      · rw [if_neg hy']
        rfl
    rw [hA, hB]

theorem zb2D_count_y (nC : ℕ) (d0 d1 D0 D1 : ℚ) (verts : List (List (List ℚ)))
    (hv : ∀ c, c < nC → ∀ v ∈ verts.getD c [], v.length = 3 ∧ v.getD 2 0 = 1)
    (hnd : ∀ c, c < nC → (verts.getD c []).Nodup)
    (c : ℕ) (hc : c < nC) (v : List ℚ) (hvc : v ∈ verts.getD c [])
    (hy : v.getD 1 0 = d1 ∨ v.getD 1 0 = D1) :
    (Tesselation2D.create_zero_boundary_constrains nC d0 d1 D0 D1 verts).rows.count
      (zbRow nC c 0 v) = 1 := by
  obtain ⟨hvl, hv2⟩ := hv c hc v hvc
  apply count_flatMap_eq_one (List.range nC) _ _ c (List.mem_range.2 hc)
    (List.nodup_range _)
  · apply count_flatMap_eq_one _ _ _ v hvc (hnd c hc)
    · rw [List.count_append, if_pos hy, yrow_eq_zbRow nC c v hvl hc]
      have hA : ((if v.getD 0 0 = d0 ∨ v.getD 0 0 = D0
          then [setSlice (List.replicate (6 * nC) 0) (6 * c) ([0, 0, 0] ++ v)]
          else []) : List (List ℚ)).count (zbRow nC c 0 v) = 0 := by
        by_cases hx : v.getD 0 0 = d0 ∨ v.getD 0 0 = D0
        · rw [if_pos hx, xrow_eq_zbRow nC c v hvl hc]
          have hne : zbRow nC c 1 v ≠ zbRow nC c 0 v :=
            zbRow_ne_of_pos nC c 0 c 1 v v hv2 hvl (by rw [hvl]; omega) (by omega)
              (by rw [hvl]; omega)
          simp [List.count_cons, hne]
        · rw [if_neg hx]
          rfl
      rw [hA]
      simp
    · intro w hw hwv
      obtain ⟨hwl, hw2⟩ := hv c hc w hw
      rw [List.count_append]
      have hA : ((if w.getD 0 0 = d0 ∨ w.getD 0 0 = D0
          then [setSlice (List.replicate (6 * nC) 0) (6 * c) ([0, 0, 0] ++ w)]
          else []) : List (List ℚ)).count (zbRow nC c 0 v) = 0 := by
        by_cases hx' : w.getD 0 0 = d0 ∨ w.getD 0 0 = D0
        · rw [if_pos hx', xrow_eq_zbRow nC c w hwl hc]
          have hne : zbRow nC c 1 w ≠ zbRow nC c 0 v :=
            zbRow_ne_of_pos nC c 0 c 1 v w hw2 hwl (by rw [hvl]; omega) (by omega)
              (by rw [hvl]; omega)
          simp [List.count_cons, hne]
        · rw [if_neg hx']
          rfl
      have hB : ((if w.getD 1 0 = d1 ∨ w.getD 1 0 = D1
          then [setSlice (List.replicate (6 * nC) 0) (6 * c) (w ++ [0, 0, 0])]
          else []) : List (List ℚ)).count (zbRow nC c 0 v) = 0 := by
        by_cases hy' : w.getD 1 0 = d1 ∨ w.getD 1 0 = D1
        · rw [if_pos hy', yrow_eq_zbRow nC c w hwl hc]
          have hne : zbRow nC c 0 w ≠ zbRow nC c 0 v :=
            fun h => hwv (zbRow_inj nC c 0 hwl hvl (by omega) h)
          simp [List.count_cons, hne]
        · rw [if_neg hy']
          rfl
      rw [hA, hB]
  · intro c' hc'mem hc'ne
    have hc' := List.mem_range.1 hc'mem
    apply count_flatMap_eq_zero
    intro w hw
    obtain ⟨hwl, hw2⟩ := hv c' hc' w hw
    rw [List.count_append]
    have hA : ((if w.getD 0 0 = d0 ∨ w.getD 0 0 = D0
        then [setSlice (List.replicate (6 * nC) 0) (6 * c') ([0, 0, 0] ++ w)]
        else []) : List (List ℚ)).count (zbRow nC c 0 v) = 0 := by
      by_cases hx' : w.getD 0 0 = d0 ∨ w.getD 0 0 = D0
      · rw [if_pos hx', xrow_eq_zbRow nC c' w hwl hc']
        have hne : zbRow nC c' 1 w ≠ zbRow nC c 0 v :=
          zbRow_ne_of_pos nC c 0 c' 1 v w hw2 hwl (by rw [hvl]; omega) (by omega)
            (by rw [hvl]; omega)
        simp [List.count_cons, hne]
      · rw [if_neg hx']
        rfl
    have hB : ((if w.getD 1 0 = d1 ∨ w.getD 1 0 = D1
        then [setSlice (List.replicate (6 * nC) 0) (6 * c') (w ++ [0, 0, 0])]
        else []) : List (List ℚ)).count (zbRow nC c 0 v) = 0 := by
      by_cases hy' : w.getD 1 0 = d1 ∨ w.getD 1 0 = D1
      · rw [if_pos hy', yrow_eq_zbRow nC c' w hwl hc']
        have hne : zbRow nC c' 0 w ≠ zbRow nC c 0 v :=
          zbRow_ne_of_pos nC c 0 c' 0 v w hw2 hwl (by rw [hvl]; omega) (by omega)
            (by rw [hvl]; omega)
        simp [List.count_cons, hne]
      · rw [if_neg hy']
        rfl
    rw [hA, hB]

/-- C6 as stated is false.  On the cell grid `[1, 2]` over `[0,1]²`
(`nC = 8`), the vertex `v = (0, 1/2, 1)` of simplex `2` touches the domain
minimum on axis `0`, so the claim asks for a row placing `v` at columns
`[6·2 + 3·0, 6·2 + 3·1) = [12, 15)` — the row `zbRow 8 2 0 v` — but the
zero-boundary block contains no such row. -/
theorem claim_C6_counterexample :
    ([(0 : ℚ), 1/2, 1] ∈ (Tesselation2D.find_verts 1 2 0 0 1 1).1.getD 2 [] ∧
      ([(0 : ℚ), 1/2, 1].getD 0 0 = 0 ∨ [(0 : ℚ), 1/2, 1].getD 0 0 = 1)) ∧
    (Tesselation2D.create_zero_boundary_constrains 8 0 0 1 1
        (Tesselation2D.find_verts 1 2 0 0 1 1).1).rows.count
      (zbRow 8 2 0 [0, 1/2, 1]) = 0 := by
  decide

/-- C6 amended: for every simplex `c` and vertex `v` of `c` whose coordinate
on axis `a` equals the domain minimum or maximum on axis `a`, the assembler
emits exactly one row placing the homogeneous vertex `v` in simplex `c`'s
output-dimension-`(1 - a)` parameter block — the block of the OTHER axis,
columns `[6c + 3(1-a), 6c + 3(2-a))` — all other entries zero (one row per
touching vertex per axis touched; the hypotheses say every simplex is a list
of distinct homogeneous plane vertices). -/
theorem claim_C6_zero_boundary (nC : ℕ) (d0 d1 D0 D1 : ℚ)
    (verts : List (List (List ℚ)))
    (hv : ∀ c, c < nC → ∀ v ∈ verts.getD c [], v.length = 3 ∧ v.getD 2 0 = 1)
    (hnd : ∀ c, c < nC → (verts.getD c []).Nodup)
    (c : ℕ) (hc : c < nC) (v : List ℚ) (hvc : v ∈ verts.getD c []) :
    ((v.getD 0 0 = d0 ∨ v.getD 0 0 = D0) →
      (Tesselation2D.create_zero_boundary_constrains nC d0 d1 D0 D1 verts).rows.count
        (zbRow nC c 1 v) = 1) ∧
    ((v.getD 1 0 = d1 ∨ v.getD 1 0 = D1) →
      (Tesselation2D.create_zero_boundary_constrains nC d0 d1 D0 D1 verts).rows.count
        (zbRow nC c 0 v) = 1) ∧
    (∀ a : ℕ, a < 2 → ∀ col : ℕ,
      (zbRow nC c a v).getD col 0 =
        if 6 * c + 3 * a ≤ col ∧ col < 6 * c + 3 * a + 3
        then v.getD (col - (6 * c + 3 * a)) 0 else 0) := by
  obtain ⟨hvl, hv2⟩ := hv c hc v hvc
  refine ⟨zb2D_count_x nC d0 d1 D0 D1 verts hv hnd c hc v hvc,
    zb2D_count_y nC d0 d1 D0 D1 verts hv hnd c hc v hvc,
    fun a ha col => ?_⟩
  rw [zbRow_getD nC c a v col (by rw [hvl]; omega), hvl]

/-- Witness for the amended C6 on the `[1, 2]` grid over `[0,1]²`: the
`x`-touching vertex `(0, 1/2, 1)` of simplex `2` yields exactly one row, the
one with the vertex in the axis-1 block, columns `[15, 18)`. -/
theorem claim_C6_witness :
    (Tesselation2D.create_zero_boundary_constrains 8 0 0 1 1
        (Tesselation2D.find_verts 1 2 0 0 1 1).1).rows.count
      (zbRow 8 2 1 [0, 1/2, 1]) = 1 :=
  (claim_C6_zero_boundary 8 0 0 1 1 (Tesselation2D.find_verts 1 2 0 0 1 1).1
    (by decide) (by decide) 2 (by decide) [0, 1/2, 1] (by decide)).1 (by decide)

/-- The error carried by an `Except`, when there is one (the `Except`
counterpart of `Except.toOption`, used to state which exception a failing
call raises). -/
def errorOf {ε α : Type} : Except ε α → Option ε
  | Except.error e => some e
  | Except.ok _ => none

/-- C7: the 3D grid decomposer does NOT build its z breakpoints from the
z-axis configuration.  The source line
`Vz = np.linspace(self.domain_min[1], self.domain_max[1], self.nc[1]+1)`
uses the y-axis bounds and cell count, so (i) the vertex table is literally
independent of `domain_min[2]` and `domain_max[2]`; (ii) on
`nc = [1,1,1]`, `domain = [0,1]×[0,1]×[0,2]` the upper z coordinate comes out
`1` (the y maximum) where the claim requires the z breakpoints to end at
`domain_max[2] = 2`; (iii) it instead follows the y-axis: with
`domain = [0,1]×[0,2]×[0,1]` the same coordinate is `2`; and (iv) whenever
`nc[2] > nc[1]` the access `Vz[i+1]` is out of range and the decomposer dies
with `IndexError`. -/
theorem claim_C7_z_breakpoints :
    (∀ nc0 nc1 nc2 : ℕ, ∀ d0 d1 d2 D0 D1 D2 d2' D2' : ℚ,
      Tesselation3D.find_verts nc0 nc1 nc2 d0 d1 d2 D0 D1 D2 =
        Tesselation3D.find_verts nc0 nc1 nc2 d0 d1 d2' D0 D1 D2') ∧
    ((Tesselation3D.find_verts 1 1 1 0 0 0 1 1 2).toOption.map
      (fun r => ((r.1.getD 0 []).getD 2 []).getD 2 0) = some 1) ∧
    ((Tesselation3D.find_verts 1 1 1 0 0 0 1 2 1).toOption.map
      (fun r => ((r.1.getD 0 []).getD 2 []).getD 2 0) = some 2) ∧
    (errorOf (Tesselation3D.find_verts 1 1 2 0 0 0 1 1 1) = some Err.indexError) := by
  refine ⟨fun nc0 nc1 nc2 d0 d1 d2 D0 D1 D2 d2' D2' => rfl, by decide, by decide, by decide⟩

/-- C8: the constructors perform no input validation at entry.  With
`domain_min > domain_max` on every axis, both the 1D scenario
(`nc = [5]`, domain `[1, 0]`) and the 2D scenario (`nc = [2, 2]`, domain
`[1,0] × [1,0]`) construct successfully instead of failing, directly
refuting the claimed fatal validation error. -/
theorem claim_C8_no_validation :
    (Tesselation1D.construct 5 1 0 true true).toOption.isSome = true ∧
    (Tesselation2D.construct 2 2 1 1 0 0 true true).toOption.isSome = true := by
  decide

/-!
3D pipeline failure modes (claims C9, C10).
-/

theorem Tesselation3D.find_verts_ok (nc0 nc1 nc2 : ℕ) (d0 d1 d2 D0 D1 D2 : ℚ)
    (h : nc2 ≤ nc1) :
    ∃ r, Tesselation3D.find_verts nc0 nc1 nc2 d0 d1 d2 D0 D1 D2 = Except.ok r := by
  unfold Tesselation3D.find_verts
  dsimp only
  rw [if_pos h]
  exact ⟨_, rfl⟩

theorem Tesselation3D.find_verts_err (nc0 nc1 nc2 : ℕ) (d0 d1 d2 D0 D1 D2 : ℚ)
    (h : nc1 < nc2) :
    Tesselation3D.find_verts nc0 nc1 nc2 d0 d1 d2 D0 D1 D2 =
      Except.error Err.indexError := by
  unfold Tesselation3D.find_verts
  dsimp only
  rw [if_neg (by omega)]

theorem divE_ok (a b : ℚ) (h : b ≠ 0) : divE a b = Except.ok (a / b) := by
  rw [divE, if_neg h]

theorem zbAssign_err (M : QMat) (sr c_idx : ℕ) (vals : List ℚ)
    (h : ¬ (vals.length = min ((c_idx + 1) * 12) M.ncols - min (c_idx * 12) M.ncols ∨
      vals.length = 1)) :
    zbAssign M sr c_idx vals = Except.error Err.valueError := by
  rw [zbAssign, if_neg h]

theorem divE_zero (a b : ℚ) (h : b = 0) :
    divE a b = Except.error Err.zeroDivisionError := by
  rw [divE, if_pos h]

theorem zb3D_list_head (nx ny nz : ℕ) :
    ∃ tl, ([0, nz - 1].flatMap (fun i => (List.range (ny + 1)).flatMap (fun j =>
        (List.range (nx + 1)).map (fun k => (i, j, k))))) =
      ((0, 0, 0) : ℕ × ℕ × ℕ) :: tl := by
  simp only [List.flatMap_cons, List.range_succ_eq_map, List.map_cons,
    List.cons_append]
  exact ⟨_, rfl⟩

/-- The 3D zero-boundary builder never returns: its very first grid point
already raises (`ZeroDivisionError` from `k/nx`, `j/ny` or `i/(nz-1)` when
the relevant denominator vanishes, otherwise `ValueError` from assigning the
6-element vertex row into a 12-column block slice). -/
theorem zb3D_never_ok (nx ny nz : ℕ) :
    ∃ e, Tesselation3D.create_zero_boundary_constrains nx ny nz =
      Except.error e := by
  obtain ⟨tl, htl⟩ := zb3D_list_head nx ny nz
  unfold Tesselation3D.create_zero_boundary_constrains
  dsimp only
  rw [htl, List.foldlM_cons]
  dsimp only
  by_cases hx : (nx : ℚ) = 0
  · rw [divE_zero _ _ hx]
    exact ⟨_, rfl⟩
  · rw [divE_ok _ _ hx, except_bind_ok]
    by_cases hy : (ny : ℚ) = 0
    · rw [divE_zero _ _ hy]
      exact ⟨_, rfl⟩
    · rw [divE_ok _ _ hy, except_bind_ok]
      by_cases hz : ((nz : ℚ) - 1) = 0
      · rw [divE_zero _ _ hz]
        exact ⟨_, rfl⟩
      · rw [divE_ok _ _ hz, except_bind_ok]
        simp only [Nat.cast_zero, zero_div]
        have key : ∀ cI : ℕ,
            zbAssign (zerosM
                (2 * ((nx + 1) * (ny + 1) + (nx + 1) * (nz + 1) + (ny + 1) * (nz + 1)))
                (12 * (6 * (nx * (ny * nz))))) 0 cI
              ([0, 0, 0, 0, 0, 1] : List ℚ) = Except.error Err.valueError := by
          intro cI
          apply zbAssign_err
          simp only [zerosM, List.length_cons, List.length_nil]
          omega
        rw [key]
        exact ⟨_, rfl⟩

/-- C9: with zero-boundary disabled the 3D constructor never proceeds
silently: when the vertex table is built (`nc[2] ≤ nc[1]`) it raises
`NotImplementedError` from `Tesselation3D.find_verts_outside`, and otherwise
it has already raised `IndexError` inside `find_verts`; the 1D constructor
with zero-boundary disabled succeeds (`find_verts_outside` is `pass`), its
shared-vertex data exactly the interior `find_shared_verts` output — no
auxiliary vertices are synthesized. -/
theorem claim_C9_boundary_flag :
    (∀ nc0 nc1 nc2 : ℕ, ∀ d0 d1 d2 D0 D1 D2 : ℚ, ∀ vp : Bool, nc2 ≤ nc1 →
      Tesselation3D.construct nc0 nc1 nc2 d0 d1 d2 D0 D1 D2 false vp =
        Except.error Err.notImplementedError) ∧
    (∀ nc0 nc1 nc2 : ℕ, ∀ d0 d1 d2 D0 D1 D2 : ℚ, ∀ vp : Bool, nc1 < nc2 →
      Tesselation3D.construct nc0 nc1 nc2 d0 d1 d2 D0 D1 D2 false vp =
        Except.error Err.indexError) ∧
    (∀ n : ℕ, ∀ dmin dmax : ℚ, ∀ vp : Bool, 0 < n → dmin ≠ dmax →
      ∃ L : QMat, Tesselation1D.construct n dmin dmax false vp =
        Except.ok ⟨L, Tesselation1D.find_verts n dmin dmax,
          (find_shared_verts 1 n (Tesselation1D.find_verts n dmin dmax)).1,
          (find_shared_verts 1 n (Tesselation1D.find_verts n dmin dmax)).2⟩) := by
  refine ⟨?_, ?_,
    fun n dmin dmax vp hn hne => Tesselation1D.construct_spec n dmin dmax hn hne false vp⟩
  · intro nc0 nc1 nc2 d0 d1 d2 D0 D1 D2 vp h
    obtain ⟨r, hr⟩ := Tesselation3D.find_verts_ok nc0 nc1 nc2 d0 d1 d2 D0 D1 D2 h
    unfold Tesselation3D.construct
    dsimp only
    rw [hr, except_bind_ok]
    rfl
  · intro nc0 nc1 nc2 d0 d1 d2 D0 D1 D2 vp h
    unfold Tesselation3D.construct
    dsimp only
    rw [Tesselation3D.find_verts_err nc0 nc1 nc2 d0 d1 d2 D0 D1 D2 h,
      except_bind_error]

/-- Witness for C9: `nc = [1,1,1]` with zero-boundary disabled raises
`NotImplementedError`; the 1D construction `nc = [2]` over `[0, 1]` with
zero-boundary disabled succeeds and stores exactly the interior shared-vertex
data. -/
theorem claim_C9_witness :
    Tesselation3D.construct 1 1 1 0 0 0 1 1 1 false true =
      Except.error Err.notImplementedError ∧
    (Tesselation1D.construct 2 0 1 false true).toOption.map
        (fun t => (t.shared_v, t.shared_v_idx)) =
      some ((find_shared_verts 1 2 (Tesselation1D.find_verts 2 0 1)).1,
        (find_shared_verts 1 2 (Tesselation1D.find_verts 2 0 1)).2) := by
  constructor
  · exact claim_C9_boundary_flag.1 1 1 1 0 0 0 1 1 1 true (by decide)
  · obtain ⟨L, hL⟩ := claim_C9_boundary_flag.2.2 2 0 1 true (by decide) (by decide)
    rw [hL]
    rfl

/-- C10: the 3D zero-boundary assembler never emits its row block at all:
for every cell count it raises before the first row is completed —
`ZeroDivisionError` when `nx = 0`, `ny = 0` or `nz = 1` (from the grid
fractions `k/nx`, `j/ny`, `i/(nz-1)`), and otherwise `ValueError` from
broadcasting the 6-element vertex row into a 12-column block slice.  In
particular on `nc = [2,2,2]` (where the claim promises a
`2·((3·3)+(3·3)+(3·3)) = 54`-row block of grid fractions) it raises
`ValueError`, and the full zero-boundary 3D construction on `nc = [1,1,1]`
dies with `ZeroDivisionError`. -/
theorem claim_C10_zero_boundary_3d :
    (∀ nx ny nz : ℕ, ∃ e, Tesselation3D.create_zero_boundary_constrains nx ny nz =
      Except.error e) ∧
    errorOf (Tesselation3D.create_zero_boundary_constrains 2 2 2) =
      some Err.valueError ∧
    errorOf (Tesselation3D.construct 1 1 1 0 0 0 1 1 1 true true) =
      some Err.zeroDivisionError := by
  exact ⟨zb3D_never_ok, by decide, by decide⟩

end ConcreteEvaluation
